import Mathlib

/-!
Verification development for the CBOR-style codec (`src/pb_cloud/cbor.cc`)
and the ledger property editor (`src/pb_cloud/public/pb_cloud/ledger_backend.h`,
`ledger_editor.h`) of the particle-bazel repository.

Modelling conventions:
* Bytes are `Nat` values; buffers are `List Nat`.  The C++ `std::byte` /
  `uint8_t` casts are modelled by explicit `% 256` at every place the source
  performs a cast on a value read from memory.
* `pw::Status` failure codes become `PwError`; `pw::Result<T>` / `pw::Status`
  returns become `Except PwError T`.  Because the C++ objects mutate their
  cursor even on failing calls, every stateful operation returns the error
  (or result) together with the post-call state.
* IEEE-754 doubles are transported by the code, never computed on: the code
  only memcpy-s their 8-byte big-endian representation.  A double value is
  therefore modelled by its 64-bit pattern (`Nat`), which is exact.
* Machine integers: `size_t`/`uint64_t` are `Nat` (the code never overflows
  them on the paths modelled; width hypotheses appear where relevant),
  `int64_t` is `Int` with explicit range hypotheses.
-/

namespace PbCbor

/-- Failure codes used by the modelled code paths (`pw::Status`). -/
inductive PwError where
  | resourceExhausted
  | dataLoss
  | outOfRange
  | unimplemented
  | failedPrecondition
  | notFound
  deriving DecidableEq, Repr

/-- `pw::Result<A>` / `pw::Status` (with `Unit`). -/
abbrev PwResult (A : Type) := Except PwError A

/-- CBOR major types, upper 3 bits of the initial byte (`cbor.h` enum). -/
inductive MajorType where
  | kUnsignedInt
  | kNegativeInt
  | kByteString
  | kTextString
  | kArray
  | kMap
  | kTag
  | kSimpleFloat
  deriving DecidableEq, Repr

/-- Numeric value of a major type (the enum value in `cbor.h`). -/
def MajorType.toNat : MajorType → Nat
  | .kUnsignedInt => 0
  | .kNegativeInt => 1
  | .kByteString => 2
  | .kTextString => 3
  | .kArray => 4
  | .kMap => 5
  | .kTag => 6
  | .kSimpleFloat => 7

/-- `static_cast<MajorType>(n)` for `n = initial >> 5 < 8`; the default arm
is unreachable because the argument is always a 3-bit value. -/
def majorOfNat : Nat → MajorType
  | 0 => .kUnsignedInt
  | 1 => .kNegativeInt
  | 2 => .kByteString
  | 3 => .kTextString
  | 4 => .kArray
  | 5 => .kMap
  | 6 => .kTag
  | _ => .kSimpleFloat

/-- Big-endian byte list of the low `k` bytes of `n`: the bytes written by
the loops `buffer_[pos_++] = static_cast<std::byte>(arg >> (i * 8))` for
`i = k-1 .. 0`. -/
def beBytes (n : Nat) : Nat → List Nat
  | 0 => []
  | k + 1 => (n / 256 ^ k % 256) :: beBytes n k

/-- Big-endian accumulation `acc = (acc << 8) | byte` as in the decoder. -/
def beDecode (bs : List Nat) : Nat := bs.foldl (fun acc b => acc * 256 + b) 0

/-- The byte list produced by `Encoder::WriteHeader(type, argument)`: the
initial byte `(major << 5) | info` followed by the big-endian argument bytes.
`major | x` with `x < 32` equals `32 * major + x` because the bit ranges are
disjoint. -/
def headerBytes (t : MajorType) (argument : Nat) : List Nat :=
  if argument < 24 then
    [32 * t.toNat + argument]
  else if argument ≤ 0xff then
    [32 * t.toNat + 24, argument]
  else if argument ≤ 0xffff then
    (32 * t.toNat + 25) :: beBytes argument 2
  else if argument ≤ 0xffffffff then
    (32 * t.toNat + 26) :: beBytes argument 4
  else
    (32 * t.toNat + 27) :: beBytes argument 8

/-- `cbor::Encoder`: a caller buffer of capacity `cap` and the bytes written
so far (`pos_ = data.length`). -/
structure Encoder where
  cap : Nat
  data : List Nat
  deriving DecidableEq, Repr

/-- `Encoder(buffer)` over a fresh buffer of capacity `cap`. -/
def Encoder.init (cap : Nat) : Encoder := ⟨cap, []⟩

/-- `Encoder::size()`. -/
def Encoder.size (e : Encoder) : Nat := e.data.length

/-- `Encoder::remaining()`. -/
def Encoder.remaining (e : Encoder) : Nat := e.cap - e.data.length

/-- `Encoder::WriteRaw(data, len)`: capacity check, then memcpy at the
cursor.  On failure the encoder is unchanged. -/
def writeRaw (e : Encoder) (bs : List Nat) : PwResult Unit × Encoder :=
  if e.remaining < bs.length then (.error .resourceExhausted, e)
  else (.ok (), ⟨e.cap, e.data ++ bs⟩)

/-- `Encoder::WriteHeader(type, argument)`: each width branch of the source
checks `remaining() < 1 + trailing` and then appends exactly those bytes;
this is expressed with the per-branch byte list `headerBytes`. -/
def writeHeader (e : Encoder) (t : MajorType) (a : Nat) : PwResult Unit × Encoder :=
  if e.remaining < (headerBytes t a).length then (.error .resourceExhausted, e)
  else (.ok (), ⟨e.cap, e.data ++ headerBytes t a⟩)

/-- `Encoder::WriteKey(key)`: text-string header then the raw key bytes. -/
def writeKey (e : Encoder) (key : List Nat) : PwResult Unit × Encoder :=
  match writeHeader e .kTextString key.length with
  | (.error err, e1) => (.error err, e1)
  | (.ok _, e1) => writeRaw e1 key

/-- `Encoder::BeginMap(count)`. -/
def beginMap (e : Encoder) (count : Nat) : PwResult Unit × Encoder :=
  writeHeader e .kMap count

/-- `Encoder::WriteNull(key)`: key then the single byte `0xe0 | 22 = 0xf6`. -/
def writeNull (e : Encoder) (key : List Nat) : PwResult Unit × Encoder :=
  match writeKey e key with
  | (.error err, e1) => (.error err, e1)
  | (.ok _, e1) =>
    if e1.remaining < 1 then (.error .resourceExhausted, e1)
    else (.ok (), ⟨e1.cap, e1.data ++ [0xe0 + 22]⟩)

/-- `Encoder::WriteBool(key, value)`: key then `0xf4`/`0xf5`
(`0xe0 | simple` with simple 20/21). -/
def writeBool (e : Encoder) (key : List Nat) (value : Bool) : PwResult Unit × Encoder :=
  match writeKey e key with
  | (.error err, e1) => (.error err, e1)
  | (.ok _, e1) =>
    if e1.remaining < 1 then (.error .resourceExhausted, e1)
    else (.ok (), ⟨e1.cap, e1.data ++ [0xe0 + (if value then 21 else 20)]⟩)

/-- `Encoder::WriteInt(key, value)`: non-negative values use the unsigned
major type; negative values use the negative major type with argument
`-1 - value`. -/
def writeInt (e : Encoder) (key : List Nat) (value : Int) : PwResult Unit × Encoder :=
  match writeKey e key with
  | (.error err, e1) => (.error err, e1)
  | (.ok _, e1) =>
    if 0 ≤ value then writeHeader e1 .kUnsignedInt value.toNat
    else writeHeader e1 .kNegativeInt (-1 - value).toNat

/-- The value bytes `WriteInt` appends after the key: the header for the
unsigned major type at non-negative values, else for the negative major
type with argument `-1 - value`. -/
def intValueBytes (value : Int) : List Nat :=
  if 0 ≤ value then headerBytes .kUnsignedInt value.toNat
  else headerBytes .kNegativeInt (-1 - value).toNat

/-- `Encoder::WriteUint(key, value)`. -/
def writeUint (e : Encoder) (key : List Nat) (value : Nat) : PwResult Unit × Encoder :=
  match writeKey e key with
  | (.error err, e1) => (.error err, e1)
  | (.ok _, e1) => writeHeader e1 .kUnsignedInt value

/-- `Encoder::WriteDouble(key, value)`: key, then `0xfb` and the 8 big-endian
bytes of the double's IEEE-754 pattern `bits`. -/
def writeDouble (e : Encoder) (key : List Nat) (bits : Nat) : PwResult Unit × Encoder :=
  match writeKey e key with
  | (.error err, e1) => (.error err, e1)
  | (.ok _, e1) =>
    if e1.remaining < 9 then (.error .resourceExhausted, e1)
    else (.ok (), ⟨e1.cap, e1.data ++ 0xfb :: beBytes bits 8⟩)

/-- `Encoder::WriteString(key, value)`. -/
def writeString (e : Encoder) (key value : List Nat) : PwResult Unit × Encoder :=
  match writeKey e key with
  | (.error err, e1) => (.error err, e1)
  | (.ok _, e1) =>
    match writeHeader e1 .kTextString value.length with
    | (.error err, e2) => (.error err, e2)
    | (.ok _, e2) => writeRaw e2 value

/-- `Encoder::WriteBytes(key, value)`. -/
def writeBytes (e : Encoder) (key value : List Nat) : PwResult Unit × Encoder :=
  match writeKey e key with
  | (.error err, e1) => (.error err, e1)
  | (.ok _, e1) =>
    match writeHeader e1 .kByteString value.length with
    | (.error err, e2) => (.error err, e2)
    | (.ok _, e2) => writeRaw e2 value

/-!  ## Decoder

Every operation takes the decoder data and current position `pos_` and
returns the result together with the position after the call — the C++
object advances `pos_` even on paths that end in an error, and the
ledger import loop relies on that. -/

/-- `static_cast<uint8_t>(data_[pos])`: byte read with the uint8 cast. -/
def byteAt (data : List Nat) (pos : Nat) : Nat := data.getD pos 0 % 256

/-- The big-endian accumulation loop
`argument = (argument << 8) | static_cast<uint8_t>(data_[pos_++])`
over `k` bytes starting at `pos`. -/
def readBE (data : List Nat) (pos k : Nat) : Nat :=
  beDecode (((data.drop pos).take k).map (fun b => b % 256))

/-- The value a double produced by `Decoder::ReadDouble` denotes: either the
8-byte IEEE-754 pattern read after a `0xfb` tag, or the double obtained by
widening an integer value (the widening itself is a floating-point
conversion and is kept symbolic). -/
inductive DVal where
  | ofInt (i : Int)
  | bits (b : Nat)
  deriving DecidableEq, Repr

/-- `Decoder::ReadHeaderAny()`: initial byte, then the additional-info
dispatch.  Returns `(major type, argument)` and the new position. -/
def readHeaderAny (data : List Nat) (pos : Nat) :
    PwResult (MajorType × Nat) × Nat :=
  if data.length ≤ pos then (.error .dataLoss, pos)
  else
    let initial := byteAt data pos
    let p := pos + 1
    let t := majorOfNat (initial / 32)
    let additional := initial % 32
    if additional < 24 then (.ok (t, additional), p)
    else if additional = 24 then
      if data.length ≤ p then (.error .dataLoss, p)
      else (.ok (t, byteAt data p), p + 1)
    else if additional = 25 then
      if data.length - p < 2 then (.error .dataLoss, p)
      else (.ok (t, readBE data p 2), p + 2)
    else if additional = 26 then
      if data.length - p < 4 then (.error .dataLoss, p)
      else (.ok (t, readBE data p 4), p + 4)
    else if additional = 27 then
      if data.length - p < 8 then (.error .dataLoss, p)
      else (.ok (t, readBE data p 8), p + 8)
    else (.error .unimplemented, p)

/-- `Decoder::ReadHeader(expected_type)`. -/
def readHeader (data : List Nat) (pos : Nat) (expected : MajorType) :
    PwResult Nat × Nat :=
  match readHeaderAny data pos with
  | (.error err, p) => (.error err, p)
  | (.ok (t, a), p) =>
    if t = expected then (.ok a, p) else (.error .dataLoss, p)

/-- `Decoder::ReadMapHeader()`. -/
def readMapHeader (data : List Nat) (pos : Nat) : PwResult Nat × Nat :=
  readHeader data pos .kMap

/-- `Decoder::ReadRaw(dest, len)`: bounds check then memcpy; returns the
copied bytes. -/
def readRaw (data : List Nat) (pos len : Nat) : PwResult (List Nat) × Nat :=
  if data.length - pos < len then (.error .dataLoss, pos)
  else (.ok ((data.drop pos).take len), pos + len)

/-- `Decoder::ReadKey(key_buffer)`: text header, key-buffer capacity check,
raw copy.  `keyBufSize` is the caller buffer's size. -/
def readKey (data : List Nat) (pos keyBufSize : Nat) :
    PwResult (List Nat) × Nat :=
  match readHeader data pos .kTextString with
  | (.error err, p) => (.error err, p)
  | (.ok len, p) =>
    if keyBufSize < len then (.error .resourceExhausted, p)
    else readRaw data p len

/-- `Decoder::PeekByte()` (const: no position change). -/
def peekByte (data : List Nat) (pos : Nat) : PwResult Nat :=
  if data.length ≤ pos then .error .dataLoss else .ok (byteAt data pos)

/-- `Decoder::PeekType()` (const). -/
def peekType (data : List Nat) (pos : Nat) : PwResult MajorType :=
  match peekByte data pos with
  | .error err => .error err
  | .ok b => .ok (majorOfNat (b / 32))

/-- `Decoder::ReadBool()`: accepts exactly the bytes `0xf4`/`0xf5`. -/
def readBool (data : List Nat) (pos : Nat) : PwResult Bool × Nat :=
  match peekByte data pos with
  | .error err => (.error err, pos)
  | .ok b =>
    if b = 0xf4 then (.ok false, pos + 1)
    else if b = 0xf5 then (.ok true, pos + 1)
    else (.error .dataLoss, pos)

/-- `Decoder::ReadInt()`: unsigned or negative major type, 64-bit signed
range check, `-1 - argument` reconstruction. -/
def readInt (data : List Nat) (pos : Nat) : PwResult Int × Nat :=
  match readHeaderAny data pos with
  | (.error err, p) => (.error err, p)
  | (.ok (t, a), p) =>
    if t = .kUnsignedInt then
      if 2 ^ 63 - 1 < a then (.error .outOfRange, p) else (.ok (a : Int), p)
    else if t = .kNegativeInt then
      if 2 ^ 63 - 1 < a then (.error .outOfRange, p) else (.ok (-1 - (a : Int)), p)
    else (.error .dataLoss, p)

/-- `Decoder::ReadUint()`. -/
def readUint (data : List Nat) (pos : Nat) : PwResult Nat × Nat :=
  readHeader data pos .kUnsignedInt

/-- `Decoder::ReadDouble()`: integer major types are widened via `ReadInt`;
otherwise the initial byte must be `0xfb`, followed by 8 big-endian bytes. -/
def readDouble (data : List Nat) (pos : Nat) : PwResult DVal × Nat :=
  match peekByte data pos with
  | .error err => (.error err, pos)
  | .ok initial =>
    let t := majorOfNat (initial / 32)
    if t = .kUnsignedInt ∨ t = .kNegativeInt then
      match readInt data pos with
      | (.error err, p) => (.error err, p)
      | (.ok i, p) => (.ok (.ofInt i), p)
    else if initial ≠ 0xfb then (.error .dataLoss, pos)
    else
      let p := pos + 1
      if data.length - p < 8 then (.error .dataLoss, p)
      else (.ok (.bits (readBE data p 8)), p + 8)

/-- `Decoder::ReadString(buffer)`: text header, destination capacity check,
raw copy; returns the copied bytes (the C++ returns their length and fills
the caller buffer). -/
def readString (data : List Nat) (pos bufSize : Nat) :
    PwResult (List Nat) × Nat :=
  match readHeader data pos .kTextString with
  | (.error err, p) => (.error err, p)
  | (.ok len, p) =>
    if bufSize < len then (.error .resourceExhausted, p)
    else readRaw data p len

/-- `Decoder::ReadBytes(buffer)`. -/
def readBytes (data : List Nat) (pos bufSize : Nat) :
    PwResult (List Nat) × Nat :=
  match readHeader data pos .kByteString with
  | (.error err, p) => (.error err, p)
  | (.ok len, p) =>
    if bufSize < len then (.error .resourceExhausted, p)
    else readRaw data p len

/-- `Decoder::PeekStringLength()` (const): type check for byte/text string,
then the header argument without consuming anything. -/
def peekStringLength (data : List Nat) (pos : Nat) : PwResult Nat :=
  if data.length ≤ pos then .error .dataLoss
  else
    let initial := byteAt data pos
    let t := majorOfNat (initial / 32)
    if ¬(t = .kByteString ∨ t = .kTextString) then .error .failedPrecondition
    else
      let additional := initial % 32
      let headerPos := pos + 1
      if additional < 24 then .ok additional
      else if additional = 24 then
        if data.length ≤ headerPos then .error .dataLoss
        else .ok (byteAt data headerPos)
      else if additional = 25 then
        if data.length - headerPos < 2 then .error .dataLoss
        else .ok (readBE data headerPos 2)
      else if additional = 26 then
        if data.length - headerPos < 4 then .error .dataLoss
        else .ok (readBE data headerPos 4)
      else if additional = 27 then
        if data.length - headerPos < 8 then .error .dataLoss
        else .ok (readBE data headerPos 8)
      else .error .unimplemented

/-- `n` sequential `SkipValue` calls (the array/map element loops), using the
supplied one-value skip. -/
def skipSeq (skip1 : Nat → PwResult Unit × Nat) : Nat → Nat → PwResult Unit × Nat
  | 0, pos => (.ok (), pos)
  | n + 1, pos =>
    match skip1 pos with
    | (.error err, p) => (.error err, p)
    | (.ok _, p) => skipSeq skip1 n p

/-- `Decoder::SkipValue()`, with explicit recursion fuel: the fuel bounds the
nesting depth only; every nesting level consumes at least one header byte, so
`data.length + 1` fuel is always sufficient (see `skipValue`). -/
def skipValueFuel : Nat → List Nat → Nat → PwResult Unit × Nat
  | 0, _, pos => (.error .dataLoss, pos)
  | fuel + 1, data, pos =>
    match readHeaderAny data pos with
    | (.error err, p) => (.error err, p)
    | (.ok (t, argument), p) =>
      match t with
      | .kUnsignedInt => (.ok (), p)
      | .kNegativeInt => (.ok (), p)
      | .kByteString =>
        if data.length - p < argument then (.error .dataLoss, p)
        else (.ok (), p + argument)
      | .kTextString =>
        if data.length - p < argument then (.error .dataLoss, p)
        else (.ok (), p + argument)
      | .kArray => skipSeq (skipValueFuel fuel data) argument p
      | .kMap => skipSeq (skipValueFuel fuel data) (2 * argument) p
      | .kTag => skipValueFuel fuel data p
      | .kSimpleFloat =>
        if argument ≤ 23 then (.ok (), p)
        else if argument = 24 then
          if data.length ≤ p then (.error .dataLoss, p) else (.ok (), p + 1)
        else if argument = 25 then
          if data.length - p < 2 then (.error .dataLoss, p) else (.ok (), p + 2)
        else if argument = 26 then
          if data.length - p < 4 then (.error .dataLoss, p) else (.ok (), p + 4)
        else if argument = 27 then
          if data.length - p < 8 then (.error .dataLoss, p) else (.ok (), p + 8)
        else (.error .dataLoss, p)

/-- `Decoder::SkipValue()`.  The C++ recursion nests at most one level per
consumed header byte, so `data.length + 1` fuel never runs out. -/
def skipValue (data : List Nat) (pos : Nat) : PwResult Unit × Nat :=
  skipValueFuel (data.length + 1) data pos

end PbCbor

namespace PbLedger

open PbCbor

/-- `kMaxLedgerProperties` (`ledger_editor.h`). -/
def kMaxLedgerProperties : Nat := 16

/-- `kMaxLedgerNameSize` (`ledger_types.h`), the import key buffer size. -/
def kMaxLedgerNameSize : Nat := 32

/-- `PropertyEntry` (`ledger_editor.h`).  `key` and `spanValue` are
string-view style `(offset, size)` windows into the shared caller buffer
(the arena region).  The C++ value union is modelled with one field per
variant; the active one is selected by `type`/`simpleValue`.  Fields the
C++ leaves indeterminate are defaulted to zero values and no theorem
depends on them. -/
structure PropertyEntry where
  key : Nat × Nat := (0, 0)
  type : MajorType := .kSimpleFloat
  boolValue : Bool := false
  intValue : Int := 0
  uintValue : Nat := 0
  doubleValue : Nat := 0
  spanValue : Nat × Nat := (0, 0)
  simpleValue : Nat := 0
  removed : Bool := false
  deriving DecidableEq, Repr

/-- `LedgerEditor` state: the caller buffer contents (fixed length), the
materialized `properties_[0 .. property_count_)`, and the backward-growing
arena cursor `string_buffer_used_`.  The blob-store handle is an external
collaborator and is not part of the model. -/
structure LedgerEditor where
  buf : List Nat
  entries : List PropertyEntry
  used : Nat
  deriving DecidableEq, Repr

/-- Overwrite `buf[off .. off + bs.length)` with `bs` (a memcpy into the
buffer); length-preserving whenever the write is in range. -/
def writeAt (buf : List Nat) (off : Nat) (bs : List Nat) : List Nat :=
  buf.take off ++ bs ++ buf.drop (off + bs.length)

/-- Contents of a `(offset, size)` view into the buffer (a string_view
into the arena). -/
def sliceOf (buf : List Nat) (v : Nat × Nat) : List Nat :=
  (buf.drop v.1).take v.2

/-- The key a property entry currently denotes. -/
def keyBytes (buf : List Nat) (e : PropertyEntry) : List Nat := sliceOf buf e.key

/-- `LedgerEditor::AllocateBuffer(size)`: reserve `size` bytes growing
backward from the end, failing past the buffer midpoint.  Returns the
offset of the new block; the state is returned in both cases. -/
def allocateBuffer (s : LedgerEditor) (size : Nat) : PwResult Nat × LedgerEditor :=
  if s.buf.length / 2 < s.used + size then (.error .resourceExhausted, s)
  else (.ok (s.buf.length - s.used - size), { s with used := s.used + size })

/-- `LedgerEditor::Find(key)`: index of the first non-removed entry whose
key view equals `key`. -/
def find (s : LedgerEditor) (key : List Nat) : Option Nat :=
  s.entries.findIdx? (fun e => !e.removed && keyBytes s.buf e == key)

/-- `LedgerEditor::FindOrCreate(key)`: existing live entry, else reuse the
first tombstone (clearing `removed` before the key allocation, so a failed
allocation still leaves the entry resurrected with its stale key), else
append a fresh default entry; the key is arena-copied in the latter two
cases. -/
def findOrCreate (s : LedgerEditor) (key : List Nat) : PwResult Nat × LedgerEditor :=
  match find s key with
  | some i => (.ok i, s)
  | none =>
    match s.entries.findIdx? (fun e => e.removed) with
    | some i =>
      let s1 : LedgerEditor :=
        { s with entries := s.entries.set i { s.entries.getD i {} with removed := false } }
      match allocateBuffer s1 key.length with
      | (.error err, s2) => (.error err, s2)
      | (.ok off, s2) =>
        let s3 : LedgerEditor := { s2 with buf := writeAt s2.buf off key }
        (.ok i, { s3 with
          entries := s3.entries.set i { s3.entries.getD i {} with key := (off, key.length) } })
    | none =>
      if kMaxLedgerProperties ≤ s.entries.length then (.error .resourceExhausted, s)
      else
        match allocateBuffer s key.length with
        | (.error err, s2) => (.error err, s2)
        | (.ok off, s2) =>
          let s3 : LedgerEditor := { s2 with buf := writeAt s2.buf off key }
          (.ok s3.entries.length,
           { s3 with entries := s3.entries ++ [{ key := (off, key.length) }] })

/-- Update entry `i` of the editor with `f`. -/
def updateEntry (s : LedgerEditor) (i : Nat) (f : PropertyEntry → PropertyEntry) :
    LedgerEditor :=
  { s with entries := s.entries.set i (f (s.entries.getD i {})) }

/-- `LedgerEditor::SetBool(key, value)`. -/
def setBool (s : LedgerEditor) (key : List Nat) (value : Bool) :
    PwResult Unit × LedgerEditor :=
  match findOrCreate s key with
  | (.error err, s1) => (.error err, s1)
  | (.ok i, s1) =>
    (.ok (), updateEntry s1 i (fun e =>
      { e with type := .kSimpleFloat,
               simpleValue := if value then 21 else 20,
               boolValue := value }))

/-- `LedgerEditor::SetInt(key, value)`. -/
def setInt (s : LedgerEditor) (key : List Nat) (value : Int) :
    PwResult Unit × LedgerEditor :=
  match findOrCreate s key with
  | (.error err, s1) => (.error err, s1)
  | (.ok i, s1) =>
    (.ok (), updateEntry s1 i (fun e =>
      if 0 ≤ value then { e with type := .kUnsignedInt, uintValue := value.toNat }
      else { e with type := .kNegativeInt, intValue := value }))

/-- `LedgerEditor::SetUint(key, value)`. -/
def setUint (s : LedgerEditor) (key : List Nat) (value : Nat) :
    PwResult Unit × LedgerEditor :=
  match findOrCreate s key with
  | (.error err, s1) => (.error err, s1)
  | (.ok i, s1) =>
    (.ok (), updateEntry s1 i (fun e =>
      { e with type := .kUnsignedInt, uintValue := value }))

/-- `LedgerEditor::SetDouble(key, value)` (value as IEEE-754 bits). -/
def setDouble (s : LedgerEditor) (key : List Nat) (bits : Nat) :
    PwResult Unit × LedgerEditor :=
  match findOrCreate s key with
  | (.error err, s1) => (.error err, s1)
  | (.ok i, s1) =>
    (.ok (), updateEntry s1 i (fun e =>
      { e with type := .kSimpleFloat, simpleValue := 27, doubleValue := bits }))

/-- `LedgerEditor::SetString(key, value)`: find-or-create, then arena-copy
the value.  A failing value allocation returns the error with the entry
already created/resurrected. -/
def setString (s : LedgerEditor) (key value : List Nat) :
    PwResult Unit × LedgerEditor :=
  match findOrCreate s key with
  | (.error err, s1) => (.error err, s1)
  | (.ok i, s1) =>
    match allocateBuffer s1 value.length with
    | (.error err, s2) => (.error err, s2)
    | (.ok off, s2) =>
      let s3 : LedgerEditor := { s2 with buf := writeAt s2.buf off value }
      (.ok (), updateEntry s3 i (fun e =>
        { e with type := .kTextString, spanValue := (off, value.length) }))

/-- `LedgerEditor::SetBytes(key, value)`. -/
def setBytes (s : LedgerEditor) (key value : List Nat) :
    PwResult Unit × LedgerEditor :=
  match findOrCreate s key with
  | (.error err, s1) => (.error err, s1)
  | (.ok i, s1) =>
    match allocateBuffer s1 value.length with
    | (.error err, s2) => (.error err, s2)
    | (.ok off, s2) =>
      let s3 : LedgerEditor := { s2 with buf := writeAt s2.buf off value }
      (.ok (), updateEntry s3 i (fun e =>
        { e with type := .kByteString, spanValue := (off, value.length) }))

/-- `LedgerEditor::Remove(key)`: tombstone the live entry if present;
always OK. -/
def remove (s : LedgerEditor) (key : List Nat) : PwResult Unit × LedgerEditor :=
  match find s key with
  | some i => (.ok (), updateEntry s i (fun e => { e with removed := true }))
  | none => (.ok (), s)

/-- `LedgerEditor::property_count()`: non-removed entries. -/
def propertyCount (s : LedgerEditor) : Nat :=
  (s.entries.filter (fun e => !e.removed)).length

/-!  ### Construction over existing bytes (the import loop)

The C++ constructor decodes `ConstByteSpan(buffer.data(), existing)` — a
window into the *live* caller buffer, so the decoder view is re-taken from
the current buffer after every arena write.  A `break` in a value branch of
the source's switch still falls through to `++property_count_`, so decode
errors inside a value read materialize the entry and the loop continues;
only key-read, key-allocation and type-peek failures break the loop. -/

/-- One pass of the constructor's `for` loop, `n` iterations remaining. -/
def importLoop (existing : Nat) : Nat → LedgerEditor → Nat → LedgerEditor
  | 0, s, _ => s
  | n + 1, s, pos =>
    if kMaxLedgerProperties ≤ s.entries.length then s
    else
      match readKey (s.buf.take existing) pos kMaxLedgerNameSize with
      | (.error _, _) => s
      | (.ok keyView, p1) =>
        match allocateBuffer s keyView.length with
        | (.error _, _) => s
        | (.ok off, s1) =>
          let s2 : LedgerEditor := { s1 with buf := writeAt s1.buf off keyView }
          let entryK : PropertyEntry := { key := (off, keyView.length) }
          let view := s2.buf.take existing
          match peekType view p1 with
          | .error _ => s2
          | .ok t =>
            let entry0 := { entryK with type := t }
            match t with
            | .kUnsignedInt =>
              match readUint view p1 with
              | (.error _, p2) =>
                importLoop existing n { s2 with entries := s2.entries ++ [entry0] } p2
              | (.ok v, p2) =>
                importLoop existing n
                  { s2 with entries := s2.entries ++ [{ entry0 with uintValue := v }] } p2
            | .kNegativeInt =>
              match readInt view p1 with
              | (.error _, p2) =>
                importLoop existing n { s2 with entries := s2.entries ++ [entry0] } p2
              | (.ok v, p2) =>
                importLoop existing n
                  { s2 with entries := s2.entries ++ [{ entry0 with intValue := v }] } p2
            | .kByteString =>
              match peekStringLength view p1 with
              | .error _ =>
                importLoop existing n { s2 with entries := s2.entries ++ [entry0] } p1
              | .ok len =>
                match allocateBuffer s2 len with
                | (.error _, _) =>
                  importLoop existing n { s2 with entries := s2.entries ++ [entry0] } p1
                | (.ok voff, s4) =>
                  match readBytes view p1 len with
                  | (.error _, p2) =>
                    importLoop existing n { s4 with entries := s4.entries ++ [entry0] } p2
                  | (.ok bs, p2) =>
                    let s5 : LedgerEditor := { s4 with buf := writeAt s4.buf voff bs }
                    importLoop existing n
                      { s5 with entries :=
                          s5.entries ++ [{ entry0 with spanValue := (voff, bs.length) }] } p2
            | .kTextString =>
              match peekStringLength view p1 with
              | .error _ =>
                importLoop existing n { s2 with entries := s2.entries ++ [entry0] } p1
              | .ok len =>
                match allocateBuffer s2 len with
                | (.error _, _) =>
                  importLoop existing n { s2 with entries := s2.entries ++ [entry0] } p1
                | (.ok voff, s4) =>
                  match readString view p1 len with
                  | (.error _, p2) =>
                    importLoop existing n { s4 with entries := s4.entries ++ [entry0] } p2
                  | (.ok bs, p2) =>
                    let s5 : LedgerEditor := { s4 with buf := writeAt s4.buf voff bs }
                    importLoop existing n
                      { s5 with entries :=
                          s5.entries ++ [{ entry0 with spanValue := (voff, bs.length) }] } p2
            | .kSimpleFloat =>
              -- the source inspects `buffer[decoder.position()]`: the full
              -- buffer, not the bounded decode window
              let peek := byteAt s2.buf p1
              if peek = 0xf4 then
                let p2 := (skipValue view p1).2
                importLoop existing n
                  { s2 with entries :=
                      s2.entries ++ [{ entry0 with boolValue := false, simpleValue := 20 }] } p2
              else if peek = 0xf5 then
                let p2 := (skipValue view p1).2
                importLoop existing n
                  { s2 with entries :=
                      s2.entries ++ [{ entry0 with boolValue := true, simpleValue := 21 }] } p2
              else if peek = 0xf6 then
                let p2 := (skipValue view p1).2
                importLoop existing n
                  { s2 with entries := s2.entries ++ [{ entry0 with simpleValue := 22 }] } p2
              else if peek = 0xfb then
                match readDouble view p1 with
                | (.error _, p2) =>
                  importLoop existing n { s2 with entries := s2.entries ++ [entry0] } p2
                | (.ok (.bits b), p2) =>
                  importLoop existing n
                    { s2 with entries :=
                        s2.entries ++ [{ entry0 with doubleValue := b, simpleValue := 27 }] } p2
                | (.ok (.ofInt _), p2) =>
                  -- unreachable: guarded by `peek = 0xfb`, whose major type is 7
                  importLoop existing n { s2 with entries := s2.entries ++ [entry0] } p2
              else
                let p2 := (skipValue view p1).2
                importLoop existing n { s2 with entries := s2.entries ++ [entry0] } p2
            | _ =>
              -- `default:` — skip unsupported types, `continue` (no entry)
              let p2 := (skipValue view p1).2
              importLoop existing n s2 p2

/-- `LedgerEditor::LedgerEditor(handle, buffer, existing_data_size)`. -/
def mkEditor (buf : List Nat) (existingSize : Nat) : LedgerEditor :=
  let base : LedgerEditor := { buf := buf, entries := [], used := 0 }
  if existingSize = 0 then base
  else
    match readMapHeader (buf.take existingSize) 0 with
    | (.error _, _) => base
    | (.ok count, pos) => importLoop existingSize count base pos

/-!  ### Commit

`Commit` runs a `cbor::Encoder` over the *same* caller buffer whose tail
still holds the arena, so the encoder is modelled as a write cursor over the
shared byte list.  Keys and span values are string views into that buffer
and are read at the moment the encoder memcpy-s them. -/

/-- The commit-time encoder: cursor over the shared caller buffer. -/
structure CEnc where
  buf : List Nat
  pos : Nat
  deriving DecidableEq, Repr

/-- One encoder write of the byte list `bs` (capacity check against
`remaining() = buf.length - pos`, then the byte stores). -/
def cWriteList (c : CEnc) (bs : List Nat) : PwResult Unit × CEnc :=
  if c.buf.length - c.pos < bs.length then (.error .resourceExhausted, c)
  else (.ok (), ⟨writeAt c.buf c.pos bs, c.pos + bs.length⟩)

/-- `WriteRaw` of a `(offset, size)` view into the shared buffer: the
capacity check uses the view's size; the copied bytes are read from the
buffer as it is at this moment (for in-range views the slice has exactly
the view's size). -/
def cWriteRawView (c : CEnc) (v : Nat × Nat) : PwResult Unit × CEnc :=
  if c.buf.length - c.pos < v.2 then (.error .resourceExhausted, c)
  else
    let bs := sliceOf c.buf v
    (.ok (), ⟨writeAt c.buf c.pos bs, c.pos + v.2⟩)

/-- `WriteKey` during commit: text header for the view's size, then the raw
view bytes. -/
def cWriteKey (c : CEnc) (v : Nat × Nat) : PwResult Unit × CEnc :=
  match cWriteList c (headerBytes .kTextString v.2) with
  | (.error err, c1) => (.error err, c1)
  | (.ok _, c1) => cWriteRawView c1 v

/-- Encode one (non-removed) property entry during `Commit`: the switch on
`entry.type`.  The boolean records whether an `encoder.Write*` call was
reached for this entry (the simple/float values other than 20/21/22/27 and
the unsupported major types write nothing). -/
def commitEntry (c : CEnc) (e : PropertyEntry) : PwResult Unit × CEnc × Bool :=
  match e.type with
  | .kUnsignedInt =>
    match cWriteKey c e.key with
    | (.error err, c1) => (.error err, c1, true)
    | (.ok _, c1) =>
      match cWriteList c1 (headerBytes .kUnsignedInt e.uintValue) with
      | (.error err, c2) => (.error err, c2, true)
      | (.ok _, c2) => (.ok (), c2, true)
  | .kNegativeInt =>
    match cWriteKey c e.key with
    | (.error err, c1) => (.error err, c1, true)
    | (.ok _, c1) =>
      match
        (if 0 ≤ e.intValue then
          cWriteList c1 (headerBytes .kUnsignedInt e.intValue.toNat)
        else
          cWriteList c1 (headerBytes .kNegativeInt (-1 - e.intValue).toNat)) with
      | (.error err, c2) => (.error err, c2, true)
      | (.ok _, c2) => (.ok (), c2, true)
  | .kByteString =>
    match cWriteKey c e.key with
    | (.error err, c1) => (.error err, c1, true)
    | (.ok _, c1) =>
      match cWriteList c1 (headerBytes .kByteString e.spanValue.2) with
      | (.error err, c2) => (.error err, c2, true)
      | (.ok _, c2) =>
        match cWriteRawView c2 e.spanValue with
        | (.error err, c3) => (.error err, c3, true)
        | (.ok _, c3) => (.ok (), c3, true)
  | .kTextString =>
    match cWriteKey c e.key with
    | (.error err, c1) => (.error err, c1, true)
    | (.ok _, c1) =>
      match cWriteList c1 (headerBytes .kTextString e.spanValue.2) with
      | (.error err, c2) => (.error err, c2, true)
      | (.ok _, c2) =>
        match cWriteRawView c2 e.spanValue with
        | (.error err, c3) => (.error err, c3, true)
        | (.ok _, c3) => (.ok (), c3, true)
  | .kSimpleFloat =>
    if e.simpleValue = 20 ∨ e.simpleValue = 21 then
      match cWriteKey c e.key with
      | (.error err, c1) => (.error err, c1, true)
      | (.ok _, c1) =>
        match cWriteList c1 [0xe0 + (if e.boolValue then 21 else 20)] with
        | (.error err, c2) => (.error err, c2, true)
        | (.ok _, c2) => (.ok (), c2, true)
    else if e.simpleValue = 22 then
      match cWriteKey c e.key with
      | (.error err, c1) => (.error err, c1, true)
      | (.ok _, c1) =>
        match cWriteList c1 [0xe0 + 22] with
        | (.error err, c2) => (.error err, c2, true)
        | (.ok _, c2) => (.ok (), c2, true)
    else if e.simpleValue = 27 then
      match cWriteKey c e.key with
      | (.error err, c1) => (.error err, c1, true)
      | (.ok _, c1) =>
        match cWriteList c1 (0xfb :: beBytes e.doubleValue 8) with
        | (.error err, c2) => (.error err, c2, true)
        | (.ok _, c2) => (.ok (), c2, true)
    else (.ok (), c, false)
  | _ => (.ok (), c, false)

/-- The commit loop over all entries in original order, skipping removed
ones, short-circuiting on the first encode failure, and counting the pairs
for which a `Write*` call ran. -/
def commitLoop : List PropertyEntry → CEnc → Nat → PwResult (CEnc × Nat)
  | [], c, pairs => .ok (c, pairs)
  | e :: rest, c, pairs =>
    if e.removed then commitLoop rest c pairs
    else
      match commitEntry c e with
      | (.error err, _, _) => .error err
      | (.ok _, c1, wrote) => commitLoop rest c1 (if wrote then pairs + 1 else pairs)

/-- `LedgerEditor::Commit()` up to the hand-off to the external blob store:
`BeginMap(property_count())`, then the entry loop; returns the byte range
`buffer_[0 .. encoder.size())` that the source passes to
`LedgerHandle::Write`, together with the number of key/value pairs encoded
after the map header. -/
def commit (s : LedgerEditor) : PwResult (List Nat × Nat) :=
  match cWriteList ⟨s.buf, 0⟩ (headerBytes .kMap (propertyCount s)) with
  | (.error err, _) => .error err
  | (.ok _, c) =>
    match commitLoop s.entries c 0 with
    | .error err => .error err
    | .ok (c1, pairs) => .ok (c1.buf.take c1.pos, pairs)


/-!  ### Verification-layer predicates and fixtures -/

/-- No entry the import loop materializes has an array/map/tag type: those
major types are skipped by the `default:` arm without an entry. -/
def ImportedOk (e : PropertyEntry) : Prop :=
  e.type ≠ .kArray ∧ e.type ≠ .kMap ∧ e.type ≠ .kTag

/-- Arena well-formedness: the cursor is in range and every entry's key
view lies inside the already-allocated arena region at the buffer's end. -/
def Wf (s : LedgerEditor) : Prop :=
  s.used ≤ s.buf.length ∧
  ∀ e ∈ s.entries, s.buf.length - s.used ≤ e.key.1 ∧ e.key.1 + e.key.2 ≤ s.buf.length

/-- No two non-removed entries denote the same key. -/
def uniqueKeys (s : LedgerEditor) : Prop :=
  ∀ i j, i < s.entries.length → j < s.entries.length → i ≠ j →
    (s.entries.getD i {}).removed = false → (s.entries.getD j {}).removed = false →
    keyBytes s.buf (s.entries.getD i {}) ≠ keyBytes s.buf (s.entries.getD j {})

/-- States reachable by construction over an empty buffer followed by
successful mutations (`Remove` always succeeds). -/
inductive ReachOk : LedgerEditor → Prop where
  | init (buf : List Nat) : ReachOk (mkEditor buf 0)
  | stepSetBool (s : LedgerEditor) (key : List Nat) (v : Bool) :
      ReachOk s → (setBool s key v).1 = .ok () → ReachOk (setBool s key v).2
  | stepSetInt (s : LedgerEditor) (key : List Nat) (v : Int) :
      ReachOk s → (setInt s key v).1 = .ok () → ReachOk (setInt s key v).2
  | stepSetUint (s : LedgerEditor) (key : List Nat) (v : Nat) :
      ReachOk s → (setUint s key v).1 = .ok () → ReachOk (setUint s key v).2
  | stepSetDouble (s : LedgerEditor) (key : List Nat) (bits : Nat) :
      ReachOk s → (setDouble s key bits).1 = .ok () → ReachOk (setDouble s key bits).2
  | stepSetString (s : LedgerEditor) (key value : List Nat) :
      ReachOk s → (setString s key value).1 = .ok () →
      ReachOk (setString s key value).2
  | stepSetBytes (s : LedgerEditor) (key value : List Nat) :
      ReachOk s → (setBytes s key value).1 = .ok () →
      ReachOk (setBytes s key value).2
  | stepRemove (s : LedgerEditor) (key : List Nat) :
      ReachOk s → ReachOk (remove s key).2

/-- States reachable through the constructor over arbitrary bytes and any
sequence of mutation calls, successful or not (a failing call still leaves
a state). -/
inductive Reach : LedgerEditor → Prop where
  | init (buf : List Nat) (existingSize : Nat) : Reach (mkEditor buf existingSize)
  | stepSetBool (s : LedgerEditor) (key : List Nat) (v : Bool) :
      Reach s → Reach (setBool s key v).2
  | stepSetInt (s : LedgerEditor) (key : List Nat) (v : Int) :
      Reach s → Reach (setInt s key v).2
  | stepSetUint (s : LedgerEditor) (key : List Nat) (v : Nat) :
      Reach s → Reach (setUint s key v).2
  | stepSetDouble (s : LedgerEditor) (key : List Nat) (bits : Nat) :
      Reach s → Reach (setDouble s key bits).2
  | stepSetString (s : LedgerEditor) (key value : List Nat) :
      Reach s → Reach (setString s key value).2
  | stepSetBytes (s : LedgerEditor) (key value : List Nat) :
      Reach s → Reach (setBytes s key value).2
  | stepRemove (s : LedgerEditor) (key : List Nat) :
      Reach s → Reach (remove s key).2

/-- Test fixture for the capacity boundary: sixteen properties with
distinct one-byte keys set into a fresh 64-byte buffer. -/
def capacityScenario : LedgerEditor :=
  (List.range 16).foldl (fun s i => (setBool s [i] true).2)
    (mkEditor (List.replicate 64 0) 0)

/-- Test fixture for the import policy: a 32-byte buffer whose first 10
bytes decode as the map `a3 61 61 f7 61 62 1c 61 63 05`, i.e. three pairs
`"a": simple(23)`, `"b": <reserved additional info 28>`, `"c": 5`. -/
def c5blob : List Nat :=
  [0xa3, 0x61, 0x61, 0xf7, 0x61, 0x62, 0x1c, 0x61, 0x63, 0x05] ++
    List.replicate 22 0

/-- Whether the commit switch reaches an `encoder.Write*` call for a
(non-removed) entry: integers, strings and bytes always do, simple/float
only for the simple values 20/21/22/27; array/map/tag types write
nothing. -/
def writesPair (e : PropertyEntry) : Bool :=
  match e.type with
  | .kSimpleFloat =>
    e.simpleValue == 20 || e.simpleValue == 21 || e.simpleValue == 22 ||
      e.simpleValue == 27
  | .kArray => false
  | .kMap => false
  | .kTag => false
  | _ => true

/-- Test fixture for the commit undercount: a 32-byte buffer whose first 4
bytes decode as the map `a1 61 61 f7`, one pair `"a": simple(23)`. -/
def c9blob : List Nat := [0xa1, 0x61, 0x61, 0xf7] ++ List.replicate 28 0

/-- Test fixture for the failed-value-allocation path: an 8-byte buffer
(arena budget 4) where key `"k"` was set to uint 1 and then removed, leaving
one tombstoned slot whose type field still says unsigned-int. -/
def c10pre : LedgerEditor :=
  (remove (setUint (mkEditor (List.replicate 8 0) 0) [107] 1).2 [107]).2

/-- Test fixture for the stale-key resurrection: on a fresh 6-byte buffer
(arena budget 3) set `"x"` and `"b"`, remove both, then set `"b"` again.
The re-set reuses tombstone slot 0, so slot 1 stays tombstoned with its
stale key `"b"` while the arena is full at 3 bytes. -/
def c6shuffle : LedgerEditor :=
  (setUint ((remove ((remove ((setUint ((setUint
    (mkEditor (List.replicate 6 0) 0) [120] 1).2) [98] 1).2) [120]).2)
      [98]).2) [98] 1).2

end PbLedger

/-!  ## Codec lemmas -/

namespace PbCbor

theorem majorOfNat_toNat (t : MajorType) : majorOfNat t.toNat = t := by
  cases t <;> rfl

theorem MajorType.toNat_lt (t : MajorType) : t.toNat < 8 := by
  cases t <;> simp [MajorType.toNat]

theorem beBytes_length (n k : Nat) : (beBytes n k).length = k := by
  induction k with
  | zero => rfl
  | succ k ih => simp [beBytes, ih]

theorem beBytes_lt (n k : Nat) : ∀ b ∈ beBytes n k, b < 256 := by
  induction k with
  | zero => intro b hb; simp [beBytes] at hb
  | succ k ih =>
    intro b hb
    simp only [beBytes, List.mem_cons] at hb
    rcases hb with h | h
    · subst h; exact Nat.mod_lt _ (by norm_num)
    · exact ih b h

theorem beBytes_foldl (n k acc : Nat) :
    (beBytes n k).foldl (fun a b => a * 256 + b) acc = acc * 256 ^ k + n % 256 ^ k := by
  induction k generalizing acc with
  | zero => simp [beBytes, Nat.mod_one]
  | succ k ih =>
    simp only [beBytes, List.foldl_cons, ih]
    have h256 : (256 : Nat) ^ (k + 1) = 256 ^ k * 256 := by ring
    have hmod : n % 256 ^ (k + 1) = n % 256 ^ k + 256 ^ k * (n / 256 ^ k % 256) := by
      rw [h256, Nat.mod_mul]
    rw [hmod]; ring

theorem beDecode_beBytes (n k : Nat) (h : n < 256 ^ k) :
    beDecode (beBytes n k) = n := by
  simp [beDecode, beBytes_foldl, Nat.mod_eq_of_lt h]

theorem beBytes_map_mod (n k : Nat) :
    (beBytes n k).map (fun b => b % 256) = beBytes n k := by
  induction k with
  | zero => rfl
  | succ k ih =>
    simp only [beBytes, List.map_cons, ih, List.cons.injEq, and_true]
    exact Nat.mod_mod_of_dvd _ dvd_rfl


theorem length_triple (pre X rest : List Nat) :
    (pre ++ X ++ rest).length = pre.length + X.length + rest.length := by
  simp [List.length_append]; omega

theorem getD_triple (pre X rest : List Nat) (k : Nat) (hk : k < X.length) :
    (pre ++ X ++ rest).getD (pre.length + k) 0 = X.getD k 0 := by
  rw [List.append_assoc, List.getD_append_right _ _ _ _ (Nat.le_add_right _ _),
    Nat.add_sub_cancel_left, List.getD_append _ _ _ _ hk]

theorem byteAt_triple (pre X rest : List Nat) (k : Nat) (hk : k < X.length) :
    byteAt (pre ++ X ++ rest) (pre.length + k) = X.getD k 0 % 256 := by
  unfold byteAt
  rw [getD_triple pre X rest k hk]

theorem readBE_at (pre rest : List Nat) (a k : Nat) (ha : a < 256 ^ k) :
    readBE (pre ++ beBytes a k ++ rest) pre.length k = a := by
  unfold readBE
  rw [List.append_assoc, List.drop_left,
    List.take_left' (beBytes_length a k), beBytes_map_mod, beDecode_beBytes a k ha]

theorem initial_div (t : MajorType) (x : Nat) (hx : x < 32) :
    (32 * t.toNat + x) / 32 = t.toNat := by
  rw [Nat.mul_add_div (by norm_num), Nat.div_eq_of_lt hx, Nat.add_zero]

theorem initial_mod (t : MajorType) (x : Nat) (hx : x < 32) :
    (32 * t.toNat + x) % 32 = x := by
  rw [Nat.mul_add_mod, Nat.mod_eq_of_lt hx]

theorem initial_lt (t : MajorType) (x : Nat) (hx : x < 32) :
    32 * t.toNat + x < 256 := by
  have := t.toNat_lt; omega

/-- Reading back a header whose additional info is embedded in the tag
byte. -/
theorem readHeaderAny_case0 (pre rest : List Nat) (t : MajorType) (a : Nat)
    (h : a < 24) :
    readHeaderAny (pre ++ [32 * t.toNat + a] ++ rest) pre.length =
      (.ok (t, a), pre.length + 1) := by
  have hlt : a < 32 := by omega
  unfold readHeaderAny
  rw [if_neg (by rw [length_triple]; simp; omega)]
  have hbyte : byteAt (pre ++ [32 * t.toNat + a] ++ rest) (pre.length + 0) =
      32 * t.toNat + a := by
    rw [byteAt_triple _ _ _ 0 (by simp), List.getD_cons_zero,
      Nat.mod_eq_of_lt (initial_lt t a hlt)]
  rw [Nat.add_zero] at hbyte
  simp only [hbyte, initial_div t a hlt, initial_mod t a hlt, majorOfNat_toNat]
  rw [if_pos h]


theorem byteAt_head (pre X rest : List Nat) (b : Nat) (hb : X.getD 0 0 = b)
    (hX : 0 < X.length) (hlt : b < 256) :
    byteAt (pre ++ X ++ rest) pre.length = b := by
  have h := byteAt_triple pre X rest 0 hX
  rw [Nat.add_zero] at h
  rw [h, hb, Nat.mod_eq_of_lt hlt]

theorem readHeaderAny_case24 (pre rest : List Nat) (t : MajorType) (a : Nat)
    (h1 : 24 ≤ a) (h2 : a ≤ 0xff) :
    readHeaderAny (pre ++ [32 * t.toNat + 24, a] ++ rest) pre.length =
      (.ok (t, a), pre.length + 2) := by
  unfold readHeaderAny
  rw [if_neg (by rw [length_triple]; simp; omega)]
  have hbyte : byteAt (pre ++ [32 * t.toNat + 24, a] ++ rest) pre.length =
      32 * t.toNat + 24 :=
    byteAt_head _ _ _ _ rfl (by simp) (initial_lt t 24 (by omega))
  have hbyte1 : byteAt (pre ++ [32 * t.toNat + 24, a] ++ rest) (pre.length + 1) = a := by
    rw [byteAt_triple _ _ _ 1 (by simp), List.getD_cons_succ, List.getD_cons_zero,
      Nat.mod_eq_of_lt (by omega)]
  simp only [hbyte, initial_div t 24 (by omega), initial_mod t 24 (by omega),
    majorOfNat_toNat, hbyte1]
  norm_num

theorem readHeaderAny_case25 (pre rest : List Nat) (t : MajorType) (a : Nat)
    (h1 : 0xff < a) (h2 : a ≤ 0xffff) :
    readHeaderAny (pre ++ ((32 * t.toNat + 25) :: beBytes a 2) ++ rest) pre.length =
      (.ok (t, a), pre.length + 3) := by
  unfold readHeaderAny
  rw [if_neg (by rw [length_triple]; simp [beBytes_length]; omega)]
  have hbyte : byteAt (pre ++ ((32 * t.toNat + 25) :: beBytes a 2) ++ rest) pre.length =
      32 * t.toNat + 25 :=
    byteAt_head _ _ _ _ rfl (by simp) (initial_lt t 25 (by omega))
  have hbe : readBE (pre ++ ((32 * t.toNat + 25) :: beBytes a 2) ++ rest)
      (pre.length + 1) 2 = a := by
    have h := readBE_at (pre ++ [32 * t.toNat + 25]) rest a 2 (by omega)
    simpa [List.append_assoc] using h
  simp only [hbyte, initial_div t 25 (by omega), initial_mod t 25 (by omega),
    majorOfNat_toNat, hbe]
  norm_num
  rw [beBytes_length]
  omega

theorem readHeaderAny_case26 (pre rest : List Nat) (t : MajorType) (a : Nat)
    (h1 : 0xffff < a) (h2 : a ≤ 0xffffffff) :
    readHeaderAny (pre ++ ((32 * t.toNat + 26) :: beBytes a 4) ++ rest) pre.length =
      (.ok (t, a), pre.length + 5) := by
  unfold readHeaderAny
  rw [if_neg (by rw [length_triple]; simp [beBytes_length]; omega)]
  have hbyte : byteAt (pre ++ ((32 * t.toNat + 26) :: beBytes a 4) ++ rest) pre.length =
      32 * t.toNat + 26 :=
    byteAt_head _ _ _ _ rfl (by simp) (initial_lt t 26 (by omega))
  have hbe : readBE (pre ++ ((32 * t.toNat + 26) :: beBytes a 4) ++ rest)
      (pre.length + 1) 4 = a := by
    have h := readBE_at (pre ++ [32 * t.toNat + 26]) rest a 4 (by norm_num; omega)
    simpa [List.append_assoc] using h
  simp only [hbyte, initial_div t 26 (by omega), initial_mod t 26 (by omega),
    majorOfNat_toNat, hbe]
  norm_num
  rw [beBytes_length]
  omega

theorem readHeaderAny_case27 (pre rest : List Nat) (t : MajorType) (a : Nat)
    (h1 : 0xffffffff < a) (h2 : a < 2 ^ 64) :
    readHeaderAny (pre ++ ((32 * t.toNat + 27) :: beBytes a 8) ++ rest) pre.length =
      (.ok (t, a), pre.length + 9) := by
  unfold readHeaderAny
  rw [if_neg (by rw [length_triple]; simp [beBytes_length]; omega)]
  have hbyte : byteAt (pre ++ ((32 * t.toNat + 27) :: beBytes a 8) ++ rest) pre.length =
      32 * t.toNat + 27 :=
    byteAt_head _ _ _ _ rfl (by simp) (initial_lt t 27 (by omega))
  have hbe : readBE (pre ++ ((32 * t.toNat + 27) :: beBytes a 8) ++ rest)
      (pre.length + 1) 8 = a := by
    have h := readBE_at (pre ++ [32 * t.toNat + 27]) rest a 8 (by norm_num at h2 ⊢; omega)
    simpa [List.append_assoc] using h
  simp only [hbyte, initial_div t 27 (by omega), initial_mod t 27 (by omega),
    majorOfNat_toNat, hbe]
  norm_num
  rw [beBytes_length]
  omega

/-- Reading back any header produced by `Encoder::WriteHeader`. -/
theorem readHeaderAny_at (pre rest : List Nat) (t : MajorType) (a : Nat)
    (ha : a < 2 ^ 64) :
    readHeaderAny (pre ++ headerBytes t a ++ rest) pre.length =
      (.ok (t, a), pre.length + (headerBytes t a).length) := by
  unfold headerBytes
  by_cases c0 : a < 24
  · simpa [c0] using readHeaderAny_case0 pre rest t a c0
  · by_cases c1 : a ≤ 0xff
    · simpa [c0, c1] using readHeaderAny_case24 pre rest t a (by omega) c1
    · by_cases c2 : a ≤ 0xffff
      · simpa [c0, c1, c2, beBytes_length] using
          readHeaderAny_case25 pre rest t a (by omega) c2
      · by_cases c3 : a ≤ 0xffffffff
        · simpa [c0, c1, c2, c3, beBytes_length] using
            readHeaderAny_case26 pre rest t a (by omega) c3
        · simpa [c0, c1, c2, c3, beBytes_length] using
            readHeaderAny_case27 pre rest t a (by omega) ha



theorem readHeader_at (pre rest : List Nat) (t : MajorType) (a : Nat)
    (ha : a < 2 ^ 64) :
    readHeader (pre ++ headerBytes t a ++ rest) pre.length t =
      (.ok a, pre.length + (headerBytes t a).length) := by
  unfold readHeader
  rw [readHeaderAny_at pre rest t a ha]
  simp

theorem readRaw_at (pre bs rest : List Nat) :
    readRaw (pre ++ bs ++ rest) pre.length bs.length =
      (.ok bs, pre.length + bs.length) := by
  unfold readRaw
  rw [if_neg (by rw [length_triple]; omega)]
  rw [List.append_assoc, List.drop_left, List.take_left' rfl]

theorem readKey_at (pre key rest : List Nat) (bufSize : Nat)
    (hk : key.length < 2 ^ 64) (hbuf : key.length ≤ bufSize) :
    readKey (pre ++ (headerBytes .kTextString key.length ++ key) ++ rest)
        pre.length bufSize =
      (.ok key,
        pre.length + (headerBytes .kTextString key.length).length + key.length) := by
  unfold readKey
  have h1 : readHeader (pre ++ (headerBytes .kTextString key.length ++ key) ++ rest)
      pre.length .kTextString =
      (.ok key.length, pre.length + (headerBytes .kTextString key.length).length) := by
    have h := readHeader_at pre (key ++ rest) .kTextString key.length hk
    simpa [List.append_assoc] using h
  rw [h1]
  dsimp only
  rw [if_neg (by omega)]
  have h2 := readRaw_at (pre ++ headerBytes .kTextString key.length) key rest
  simpa [List.append_assoc, List.length_append, Nat.add_assoc] using h2

theorem readString_at (pre value rest : List Nat) (bufSize : Nat)
    (hv : value.length < 2 ^ 64) (hbuf : value.length ≤ bufSize) :
    readString (pre ++ (headerBytes .kTextString value.length ++ value) ++ rest)
        pre.length bufSize =
      (.ok value,
        pre.length + (headerBytes .kTextString value.length).length + value.length) := by
  unfold readString
  have h1 : readHeader (pre ++ (headerBytes .kTextString value.length ++ value) ++ rest)
      pre.length .kTextString =
      (.ok value.length, pre.length + (headerBytes .kTextString value.length).length) := by
    have h := readHeader_at pre (value ++ rest) .kTextString value.length hv
    simpa [List.append_assoc] using h
  rw [h1]
  dsimp only
  rw [if_neg (by omega)]
  have h2 := readRaw_at (pre ++ headerBytes .kTextString value.length) value rest
  simpa [List.append_assoc, List.length_append, Nat.add_assoc] using h2

theorem readBytes_at (pre value rest : List Nat) (bufSize : Nat)
    (hv : value.length < 2 ^ 64) (hbuf : value.length ≤ bufSize) :
    readBytes (pre ++ (headerBytes .kByteString value.length ++ value) ++ rest)
        pre.length bufSize =
      (.ok value,
        pre.length + (headerBytes .kByteString value.length).length + value.length) := by
  unfold readBytes
  have h1 : readHeader (pre ++ (headerBytes .kByteString value.length ++ value) ++ rest)
      pre.length .kByteString =
      (.ok value.length, pre.length + (headerBytes .kByteString value.length).length) := by
    have h := readHeader_at pre (value ++ rest) .kByteString value.length hv
    simpa [List.append_assoc] using h
  rw [h1]
  dsimp only
  rw [if_neg (by omega)]
  have h2 := readRaw_at (pre ++ headerBytes .kByteString value.length) value rest
  simpa [List.append_assoc, List.length_append, Nat.add_assoc] using h2

theorem readBool_at (pre rest : List Nat) (v : Bool) :
    readBool (pre ++ [0xe0 + (if v then 21 else 20)] ++ rest) pre.length =
      (.ok v, pre.length + 1) := by
  unfold readBool peekByte
  rw [if_neg (by rw [length_triple]; simp; omega)]
  have hbyte : byteAt (pre ++ [0xe0 + (if v then 21 else 20)] ++ rest) pre.length =
      0xe0 + (if v then 21 else 20) :=
    byteAt_head _ _ _ _ rfl (by simp) (by cases v <;> norm_num)
  rw [hbyte]
  cases v <;> norm_num

theorem readUint_at (pre rest : List Nat) (v : Nat) (hv : v < 2 ^ 64) :
    readUint (pre ++ headerBytes .kUnsignedInt v ++ rest) pre.length =
      (.ok v, pre.length + (headerBytes .kUnsignedInt v).length) :=
  readHeader_at pre rest .kUnsignedInt v hv

theorem readInt_at (pre rest : List Nat) (v : Int)
    (h1 : -(2 ^ 63) ≤ v) (h2 : v < 2 ^ 63) :
    readInt (pre ++ intValueBytes v ++ rest) pre.length =
      (.ok v, pre.length + (intValueBytes v).length) := by
  unfold readInt intValueBytes
  by_cases hpos : 0 ≤ v
  · rw [if_pos hpos, readHeaderAny_at pre rest .kUnsignedInt v.toNat (by omega)]
    dsimp only
    rw [if_pos rfl, if_neg (by omega)]
    simp [Int.toNat_of_nonneg hpos]
  · rw [if_neg hpos, readHeaderAny_at pre rest .kNegativeInt (-1 - v).toNat (by omega)]
    dsimp only
    rw [if_neg (by simp), if_pos rfl, if_neg (by omega)]
    have hnn : (0 : Int) ≤ -1 - v := by omega
    simp only [Prod.mk.injEq, Except.ok.injEq]
    constructor
    · rw [Int.toNat_of_nonneg hnn]; ring
    · trivial

theorem readDouble_at (pre rest : List Nat) (bits : Nat) (hb : bits < 2 ^ 64) :
    readDouble (pre ++ (0xfb :: beBytes bits 8) ++ rest) pre.length =
      (.ok (.bits bits), pre.length + 9) := by
  unfold readDouble peekByte
  rw [if_neg (by rw [length_triple]; simp; omega)]
  dsimp only
  rw [byteAt_head pre (0xfb :: beBytes bits 8) rest 0xfb rfl (by simp) (by norm_num)]
  rw [if_neg (by decide), if_neg (by decide)]
  rw [if_neg (by rw [length_triple]; simp [beBytes_length]; omega)]
  have hbe : readBE (pre ++ (0xfb :: beBytes bits 8) ++ rest) (pre.length + 1) 8 = bits := by
    have h := readBE_at (pre ++ [0xfb]) rest bits 8 (by norm_num at hb ⊢; omega)
    simpa [List.append_assoc] using h
  rw [hbe]


theorem writeKey_of_cap (e : Encoder) (key : List Nat)
    (h : (headerBytes .kTextString key.length).length + key.length ≤ e.remaining) :
    writeKey e key =
      (.ok (), ⟨e.cap, e.data ++ (headerBytes .kTextString key.length ++ key)⟩) := by
  unfold writeKey writeHeader writeRaw
  simp only [Encoder.remaining] at h ⊢
  rw [if_neg (by omega)]
  dsimp only
  rw [if_neg (by simp only [List.length_append]; omega)]
  simp [List.append_assoc]

theorem writeBool_of_cap (e : Encoder) (key : List Nat) (v : Bool)
    (h : (headerBytes .kTextString key.length).length + key.length + 1 ≤ e.remaining) :
    writeBool e key v =
      (.ok (), ⟨e.cap, e.data ++ (headerBytes .kTextString key.length ++ key) ++
        [0xe0 + (if v then 21 else 20)]⟩) := by
  unfold writeBool
  rw [writeKey_of_cap e key (by omega)]
  dsimp only
  rw [if_neg (by simp only [Encoder.remaining, List.length_append] at h ⊢; omega)]

theorem roundtrip_bool (cap : Nat) (key : List Nat) (v : Bool)
    (hk : key.length < 2 ^ 64)
    (hcap : (headerBytes .kTextString key.length).length + key.length + 1 ≤ cap) :
    (writeBool (Encoder.init cap) key v).1 = .ok () ∧
    readKey (writeBool (Encoder.init cap) key v).2.data 0 key.length =
      (.ok key, (headerBytes .kTextString key.length).length + key.length) ∧
    (readBool (writeBool (Encoder.init cap) key v).2.data
      ((headerBytes .kTextString key.length).length + key.length)).1 = .ok v := by
  rw [writeBool_of_cap (Encoder.init cap) key v (by simpa [Encoder.init, Encoder.remaining])]
  refine ⟨rfl, ?_, ?_⟩
  · have h := readKey_at [] key [0xe0 + (if v then 21 else 20)] key.length hk le_rfl
    simpa [Encoder.init] using h
  · have h := readBool_at (headerBytes .kTextString key.length ++ key) [] v
    simpa [Encoder.init, List.append_assoc, List.length_append] using congrArg Prod.fst h

theorem writeInt_of_cap (e : Encoder) (key : List Nat) (v : Int)
    (h : (headerBytes .kTextString key.length).length + key.length +
      (intValueBytes v).length ≤ e.remaining) :
    writeInt e key v =
      (.ok (), ⟨e.cap, e.data ++ (headerBytes .kTextString key.length ++ key) ++
        intValueBytes v⟩) := by
  unfold writeInt
  rw [writeKey_of_cap e key (by omega)]
  dsimp only
  unfold writeHeader
  unfold intValueBytes at h
  by_cases hpos : 0 ≤ v
  · rw [if_pos hpos] at h
    rw [if_pos hpos,
      if_neg (by simp only [Encoder.remaining, List.length_append] at h ⊢; omega)]
    simp [intValueBytes, hpos]
  · rw [if_neg hpos] at h
    rw [if_neg hpos,
      if_neg (by simp only [Encoder.remaining, List.length_append] at h ⊢; omega)]
    simp [intValueBytes, hpos]

theorem writeUint_of_cap (e : Encoder) (key : List Nat) (v : Nat)
    (h : (headerBytes .kTextString key.length).length + key.length +
      (headerBytes .kUnsignedInt v).length ≤ e.remaining) :
    writeUint e key v =
      (.ok (), ⟨e.cap, e.data ++ (headerBytes .kTextString key.length ++ key) ++
        headerBytes .kUnsignedInt v⟩) := by
  unfold writeUint
  rw [writeKey_of_cap e key (by omega)]
  dsimp only
  unfold writeHeader
  rw [if_neg (by simp only [Encoder.remaining, List.length_append] at h ⊢; omega)]

theorem writeDouble_of_cap (e : Encoder) (key : List Nat) (bits : Nat)
    (h : (headerBytes .kTextString key.length).length + key.length + 9 ≤ e.remaining) :
    writeDouble e key bits =
      (.ok (), ⟨e.cap, e.data ++ (headerBytes .kTextString key.length ++ key) ++
        0xfb :: beBytes bits 8⟩) := by
  unfold writeDouble
  rw [writeKey_of_cap e key (by omega)]
  dsimp only
  rw [if_neg (by simp only [Encoder.remaining, List.length_append] at h ⊢; omega)]

theorem writeString_of_cap (e : Encoder) (key value : List Nat)
    (h : (headerBytes .kTextString key.length).length + key.length +
      ((headerBytes .kTextString value.length).length + value.length) ≤ e.remaining) :
    writeString e key value =
      (.ok (), ⟨e.cap, e.data ++ (headerBytes .kTextString key.length ++ key) ++
        (headerBytes .kTextString value.length ++ value)⟩) := by
  unfold writeString
  rw [writeKey_of_cap e key (by omega)]
  dsimp only
  unfold writeHeader writeRaw
  rw [if_neg (by simp only [Encoder.remaining, List.length_append] at h ⊢; omega)]
  dsimp only
  rw [if_neg (by simp only [Encoder.remaining, List.length_append] at h ⊢; omega)]
  simp [List.append_assoc]

theorem writeBytes_of_cap (e : Encoder) (key value : List Nat)
    (h : (headerBytes .kTextString key.length).length + key.length +
      ((headerBytes .kByteString value.length).length + value.length) ≤ e.remaining) :
    writeBytes e key value =
      (.ok (), ⟨e.cap, e.data ++ (headerBytes .kTextString key.length ++ key) ++
        (headerBytes .kByteString value.length ++ value)⟩) := by
  unfold writeBytes
  rw [writeKey_of_cap e key (by omega)]
  dsimp only
  unfold writeHeader writeRaw
  rw [if_neg (by simp only [Encoder.remaining, List.length_append] at h ⊢; omega)]
  dsimp only
  rw [if_neg (by simp only [Encoder.remaining, List.length_append] at h ⊢; omega)]
  simp [List.append_assoc]

theorem roundtrip_int (cap : Nat) (key : List Nat) (v : Int)
    (hk : key.length < 2 ^ 64) (hlo : -(2 ^ 63) ≤ v) (hhi : v < 2 ^ 63)
    (hcap : (headerBytes .kTextString key.length).length + key.length +
      (intValueBytes v).length ≤ cap) :
    (writeInt (Encoder.init cap) key v).1 = .ok () ∧
    readKey (writeInt (Encoder.init cap) key v).2.data 0 key.length =
      (.ok key, (headerBytes .kTextString key.length).length + key.length) ∧
    (readInt (writeInt (Encoder.init cap) key v).2.data
      ((headerBytes .kTextString key.length).length + key.length)).1 = .ok v := by
  rw [writeInt_of_cap (Encoder.init cap) key v (by simpa [Encoder.init, Encoder.remaining])]
  refine ⟨rfl, ?_, ?_⟩
  · have h := readKey_at [] key (intValueBytes v) key.length hk le_rfl
    simpa [Encoder.init] using h
  · have h := readInt_at (headerBytes .kTextString key.length ++ key) [] v hlo hhi
    simpa [Encoder.init, List.append_assoc, List.length_append] using congrArg Prod.fst h

theorem roundtrip_uint (cap : Nat) (key : List Nat) (v : Nat)
    (hk : key.length < 2 ^ 64) (hv : v < 2 ^ 64)
    (hcap : (headerBytes .kTextString key.length).length + key.length +
      (headerBytes .kUnsignedInt v).length ≤ cap) :
    (writeUint (Encoder.init cap) key v).1 = .ok () ∧
    readKey (writeUint (Encoder.init cap) key v).2.data 0 key.length =
      (.ok key, (headerBytes .kTextString key.length).length + key.length) ∧
    (readUint (writeUint (Encoder.init cap) key v).2.data
      ((headerBytes .kTextString key.length).length + key.length)).1 = .ok v := by
  rw [writeUint_of_cap (Encoder.init cap) key v (by simpa [Encoder.init, Encoder.remaining])]
  refine ⟨rfl, ?_, ?_⟩
  · have h := readKey_at [] key (headerBytes .kUnsignedInt v) key.length hk le_rfl
    simpa [Encoder.init] using h
  · have h := readUint_at (headerBytes .kTextString key.length ++ key) [] v hv
    simpa [Encoder.init, List.append_assoc, List.length_append] using congrArg Prod.fst h

theorem roundtrip_double (cap : Nat) (key : List Nat) (bits : Nat)
    (hk : key.length < 2 ^ 64) (hb : bits < 2 ^ 64)
    (hcap : (headerBytes .kTextString key.length).length + key.length + 9 ≤ cap) :
    (writeDouble (Encoder.init cap) key bits).1 = .ok () ∧
    readKey (writeDouble (Encoder.init cap) key bits).2.data 0 key.length =
      (.ok key, (headerBytes .kTextString key.length).length + key.length) ∧
    (readDouble (writeDouble (Encoder.init cap) key bits).2.data
      ((headerBytes .kTextString key.length).length + key.length)).1 =
        .ok (.bits bits) := by
  rw [writeDouble_of_cap (Encoder.init cap) key bits
    (by simpa [Encoder.init, Encoder.remaining])]
  refine ⟨rfl, ?_, ?_⟩
  · have h := readKey_at [] key (0xfb :: beBytes bits 8) key.length hk le_rfl
    simpa [Encoder.init] using h
  · have h := readDouble_at (headerBytes .kTextString key.length ++ key) [] bits hb
    simpa [Encoder.init, List.append_assoc, List.length_append] using congrArg Prod.fst h

theorem roundtrip_string (cap : Nat) (key value : List Nat)
    (hk : key.length < 2 ^ 64) (hv : value.length < 2 ^ 64)
    (hcap : (headerBytes .kTextString key.length).length + key.length +
      ((headerBytes .kTextString value.length).length + value.length) ≤ cap) :
    (writeString (Encoder.init cap) key value).1 = .ok () ∧
    readKey (writeString (Encoder.init cap) key value).2.data 0 key.length =
      (.ok key, (headerBytes .kTextString key.length).length + key.length) ∧
    (readString (writeString (Encoder.init cap) key value).2.data
      ((headerBytes .kTextString key.length).length + key.length) value.length).1 =
        .ok value := by
  rw [writeString_of_cap (Encoder.init cap) key value
    (by simpa [Encoder.init, Encoder.remaining])]
  refine ⟨rfl, ?_, ?_⟩
  · have h := readKey_at [] key (headerBytes .kTextString value.length ++ value)
      key.length hk le_rfl
    simpa [Encoder.init] using h
  · have h := readString_at (headerBytes .kTextString key.length ++ key) value []
      value.length hv le_rfl
    simpa [Encoder.init, List.append_assoc, List.length_append] using congrArg Prod.fst h

theorem roundtrip_bytes (cap : Nat) (key value : List Nat)
    (hk : key.length < 2 ^ 64) (hv : value.length < 2 ^ 64)
    (hcap : (headerBytes .kTextString key.length).length + key.length +
      ((headerBytes .kByteString value.length).length + value.length) ≤ cap) :
    (writeBytes (Encoder.init cap) key value).1 = .ok () ∧
    readKey (writeBytes (Encoder.init cap) key value).2.data 0 key.length =
      (.ok key, (headerBytes .kTextString key.length).length + key.length) ∧
    (readBytes (writeBytes (Encoder.init cap) key value).2.data
      ((headerBytes .kTextString key.length).length + key.length) value.length).1 =
        .ok value := by
  rw [writeBytes_of_cap (Encoder.init cap) key value
    (by simpa [Encoder.init, Encoder.remaining])]
  refine ⟨rfl, ?_, ?_⟩
  · have h := readKey_at [] key (headerBytes .kByteString value.length ++ value)
      key.length hk le_rfl
    simpa [Encoder.init] using h
  · have h := readBytes_at (headerBytes .kTextString key.length ++ key) value []
      value.length hv le_rfl
    simpa [Encoder.init, List.append_assoc, List.length_append] using congrArg Prod.fst h


/-- C1: for every supported value of each supported type (bool; signed int
over the full 64-bit range, both signs; uint over the 64-bit range; double —
represented exactly by its IEEE-754 bit pattern, covering negative and
fractional values; text string including the empty string; byte string
including the empty one), writing the value under a key with the `Encoder`
into a sufficiently large buffer and reading it back with `ReadKey` followed
by the matching `Read` operation yields exactly the key and the value. -/
theorem C1_encode_decode_roundtrip :
    (∀ (cap : Nat) (key : List Nat) (v : Bool), key.length < 2 ^ 64 →
      (headerBytes .kTextString key.length).length + key.length + 1 ≤ cap →
      (writeBool (Encoder.init cap) key v).1 = .ok () ∧
      readKey (writeBool (Encoder.init cap) key v).2.data 0 key.length =
        (.ok key, (headerBytes .kTextString key.length).length + key.length) ∧
      (readBool (writeBool (Encoder.init cap) key v).2.data
        ((headerBytes .kTextString key.length).length + key.length)).1 = .ok v) ∧
    (∀ (cap : Nat) (key : List Nat) (v : Int), key.length < 2 ^ 64 →
      -(2 ^ 63) ≤ v → v < 2 ^ 63 →
      (headerBytes .kTextString key.length).length + key.length +
        (intValueBytes v).length ≤ cap →
      (writeInt (Encoder.init cap) key v).1 = .ok () ∧
      readKey (writeInt (Encoder.init cap) key v).2.data 0 key.length =
        (.ok key, (headerBytes .kTextString key.length).length + key.length) ∧
      (readInt (writeInt (Encoder.init cap) key v).2.data
        ((headerBytes .kTextString key.length).length + key.length)).1 = .ok v) ∧
    (∀ (cap : Nat) (key : List Nat) (v : Nat), key.length < 2 ^ 64 → v < 2 ^ 64 →
      (headerBytes .kTextString key.length).length + key.length +
        (headerBytes .kUnsignedInt v).length ≤ cap →
      (writeUint (Encoder.init cap) key v).1 = .ok () ∧
      readKey (writeUint (Encoder.init cap) key v).2.data 0 key.length =
        (.ok key, (headerBytes .kTextString key.length).length + key.length) ∧
      (readUint (writeUint (Encoder.init cap) key v).2.data
        ((headerBytes .kTextString key.length).length + key.length)).1 = .ok v) ∧
    (∀ (cap : Nat) (key : List Nat) (bits : Nat), key.length < 2 ^ 64 →
      bits < 2 ^ 64 →
      (headerBytes .kTextString key.length).length + key.length + 9 ≤ cap →
      (writeDouble (Encoder.init cap) key bits).1 = .ok () ∧
      readKey (writeDouble (Encoder.init cap) key bits).2.data 0 key.length =
        (.ok key, (headerBytes .kTextString key.length).length + key.length) ∧
      (readDouble (writeDouble (Encoder.init cap) key bits).2.data
        ((headerBytes .kTextString key.length).length + key.length)).1 =
          .ok (.bits bits)) ∧
    (∀ (cap : Nat) (key value : List Nat), key.length < 2 ^ 64 →
      value.length < 2 ^ 64 →
      (headerBytes .kTextString key.length).length + key.length +
        ((headerBytes .kTextString value.length).length + value.length) ≤ cap →
      (writeString (Encoder.init cap) key value).1 = .ok () ∧
      readKey (writeString (Encoder.init cap) key value).2.data 0 key.length =
        (.ok key, (headerBytes .kTextString key.length).length + key.length) ∧
      (readString (writeString (Encoder.init cap) key value).2.data
        ((headerBytes .kTextString key.length).length + key.length)
        value.length).1 = .ok value) ∧
    (∀ (cap : Nat) (key value : List Nat), key.length < 2 ^ 64 →
      value.length < 2 ^ 64 →
      (headerBytes .kTextString key.length).length + key.length +
        ((headerBytes .kByteString value.length).length + value.length) ≤ cap →
      (writeBytes (Encoder.init cap) key value).1 = .ok () ∧
      readKey (writeBytes (Encoder.init cap) key value).2.data 0 key.length =
        (.ok key, (headerBytes .kTextString key.length).length + key.length) ∧
      (readBytes (writeBytes (Encoder.init cap) key value).2.data
        ((headerBytes .kTextString key.length).length + key.length)
        value.length).1 = .ok value) :=
  ⟨roundtrip_bool, roundtrip_int, roundtrip_uint, roundtrip_double,
   roundtrip_string, roundtrip_bytes⟩

/-- Witness for C1 at concrete inputs: key `"k"`, values `true`, `-100`,
`256`, the bits of `1.5`, the empty string, and the bytes `AB CD`. -/
theorem C1_encode_decode_roundtrip_witness :
    ((1 : Nat) < 2 ^ 64 ∧ 3 ≤ 16 ∧
      (writeBool (Encoder.init 16) [107] true).1 = .ok () ∧
      readKey (writeBool (Encoder.init 16) [107] true).2.data 0 1 = (.ok [107], 2) ∧
      (readBool (writeBool (Encoder.init 16) [107] true).2.data 2).1 = .ok true) ∧
    ((1 : Nat) < 2 ^ 64 ∧ -(2 ^ 63) ≤ (-100 : Int) ∧ (-100 : Int) < 2 ^ 63 ∧ 4 ≤ 16 ∧
      (writeInt (Encoder.init 16) [107] (-100)).1 = .ok () ∧
      readKey (writeInt (Encoder.init 16) [107] (-100)).2.data 0 1 = (.ok [107], 2) ∧
      (readInt (writeInt (Encoder.init 16) [107] (-100)).2.data 2).1 = .ok (-100)) ∧
    ((1 : Nat) < 2 ^ 64 ∧ (256 : Nat) < 2 ^ 64 ∧ 5 ≤ 16 ∧
      (writeUint (Encoder.init 16) [107] 256).1 = .ok () ∧
      readKey (writeUint (Encoder.init 16) [107] 256).2.data 0 1 = (.ok [107], 2) ∧
      (readUint (writeUint (Encoder.init 16) [107] 256).2.data 2).1 = .ok 256) ∧
    ((1 : Nat) < 2 ^ 64 ∧ (0x3ff8000000000000 : Nat) < 2 ^ 64 ∧ 11 ≤ 16 ∧
      (writeDouble (Encoder.init 16) [107] 0x3ff8000000000000).1 = .ok () ∧
      readKey (writeDouble (Encoder.init 16) [107] 0x3ff8000000000000).2.data 0 1 =
        (.ok [107], 2) ∧
      (readDouble (writeDouble (Encoder.init 16) [107] 0x3ff8000000000000).2.data 2).1 =
        .ok (.bits 0x3ff8000000000000)) ∧
    ((1 : Nat) < 2 ^ 64 ∧ (0 : Nat) < 2 ^ 64 ∧ 3 ≤ 16 ∧
      (writeString (Encoder.init 16) [107] []).1 = .ok () ∧
      readKey (writeString (Encoder.init 16) [107] []).2.data 0 1 = (.ok [107], 2) ∧
      (readString (writeString (Encoder.init 16) [107] []).2.data 2 0).1 = .ok []) ∧
    ((1 : Nat) < 2 ^ 64 ∧ (2 : Nat) < 2 ^ 64 ∧ 5 ≤ 16 ∧
      (writeBytes (Encoder.init 16) [107] [0xab, 0xcd]).1 = .ok () ∧
      readKey (writeBytes (Encoder.init 16) [107] [0xab, 0xcd]).2.data 0 1 =
        (.ok [107], 2) ∧
      (readBytes (writeBytes (Encoder.init 16) [107] [0xab, 0xcd]).2.data 2 2).1 =
        .ok [0xab, 0xcd]) :=
  ⟨⟨by norm_num, by norm_num,
    C1_encode_decode_roundtrip.1 16 [107] true (by norm_num) (by decide)⟩,
   ⟨by norm_num, by norm_num, by norm_num, by norm_num,
    C1_encode_decode_roundtrip.2.1 16 [107] (-100) (by norm_num) (by norm_num)
      (by norm_num) (by decide)⟩,
   ⟨by norm_num, by norm_num, by norm_num,
    C1_encode_decode_roundtrip.2.2.1 16 [107] 256 (by norm_num) (by norm_num)
      (by decide)⟩,
   ⟨by norm_num, by norm_num, by norm_num,
    C1_encode_decode_roundtrip.2.2.2.1 16 [107] 0x3ff8000000000000 (by norm_num)
      (by norm_num) (by decide)⟩,
   ⟨by norm_num, by norm_num, by norm_num,
    C1_encode_decode_roundtrip.2.2.2.2.1 16 [107] [] (by norm_num) (by norm_num)
      (by decide)⟩,
   ⟨by norm_num, by norm_num, by norm_num,
    C1_encode_decode_roundtrip.2.2.2.2.2 16 [107] [0xab, 0xcd] (by norm_num)
      (by norm_num) (by decide)⟩⟩


/-- C2 counterexample: `WriteBool` with the one-byte key `"a"` into a
2-byte buffer returns ResourceExhausted, yet the key's two bytes were
written and `size()` moved from 0 to 2 — the failing call did not leave
the encoder unchanged. -/
theorem C2_counterexample_writeBool_partial :
    (writeBool (Encoder.init 2) [0x61] true).1 = .error .resourceExhausted ∧
    (writeBool (Encoder.init 2) [0x61] true).2.size = 2 ∧
    (writeBool (Encoder.init 2) [0x61] true).2.data = [0x61, 0x61] := by
  refine ⟨rfl, rfl, rfl⟩

/-- C2 (amended): `BeginMap` and the primitive write steps (`WriteHeader`,
`WriteRaw`) check the remaining capacity before storing anything, so when
one of them returns ResourceExhausted the write cursor and buffer are
unchanged; a compound key/value write that fails after its key keeps the
key bytes. -/
theorem C2_failed_primitive_write_unchanged :
    (∀ (e : Encoder) (count : Nat) (err : PwError),
      (beginMap e count).1 = .error err → (beginMap e count).2 = e) ∧
    (∀ (e : Encoder) (t : MajorType) (a : Nat) (err : PwError),
      (writeHeader e t a).1 = .error err → (writeHeader e t a).2 = e) ∧
    (∀ (e : Encoder) (bs : List Nat) (err : PwError),
      (writeRaw e bs).1 = .error err → (writeRaw e bs).2 = e) := by
  refine ⟨?_, ?_, ?_⟩
  · intro e count err h
    unfold beginMap writeHeader at h ⊢
    split at h <;> simp_all
  · intro e t a err h
    unfold writeHeader at h ⊢
    split at h <;> simp_all
  · intro e bs err h
    unfold writeRaw at h ⊢
    split at h <;> simp_all

/-- Witness for the amended C2 at concrete failing writes into a 0-byte
buffer. -/
theorem C2_failed_primitive_write_unchanged_witness :
    (beginMap (Encoder.init 0) 1).1 = .error .resourceExhausted ∧
    (beginMap (Encoder.init 0) 1).2 = Encoder.init 0 ∧
    (writeHeader (Encoder.init 0) .kUnsignedInt 5).2 = Encoder.init 0 ∧
    (writeRaw (Encoder.init 0) [1]).2 = Encoder.init 0 :=
  ⟨rfl,
   C2_failed_primitive_write_unchanged.1 (Encoder.init 0) 1 .resourceExhausted rfl,
   C2_failed_primitive_write_unchanged.2.1 (Encoder.init 0) .kUnsignedInt 5
     .resourceExhausted rfl,
   C2_failed_primitive_write_unchanged.2.2 (Encoder.init 0) [1]
     .resourceExhausted rfl⟩

/-- C3: the 9 bytes `fb 3f f8 00 00 00 00 00 00` are exactly the encoder's
own encoding of the double `1.5` (bit pattern `0x3ff8000000000000`), a
well-formed definite-length value; yet `SkipValue` fails with DataLoss on
it instead of returning OK after those 9 bytes.  The major-type-7 branch of
`SkipValue` treats the value returned by `ReadHeaderAny` as the raw
additional-info bits, but `ReadHeaderAny` has already consumed the
extension bytes and returned the full 64-bit argument. -/
theorem C3_skipValue_double_dataloss :
    0xfb :: beBytes 0x3ff8000000000000 8 =
      [0xfb, 0x3f, 0xf8, 0, 0, 0, 0, 0, 0] ∧
    skipValue (0xfb :: beBytes 0x3ff8000000000000 8) 0 = (.error .dataLoss, 9) := by
  refine ⟨rfl, rfl⟩

/-- C4: every header argument is encoded with the smallest sufficient
width — 0 trailing bytes exactly below 24, 1 up to `0xFF`, 2 up to
`0xFFFF`, 4 up to `0xFFFFFFFF`, 8 above; `WriteInt` appends exactly the
key followed by these value bytes; and the claim's seven integer
examples: 0 → `00`, 23 → `17`, 24 → `18 18`, 256 → `19 01 00`,
-1 → `20`, -10 → `29`, -100 → `38 63`. -/
theorem C4_minimal_width_headers :
    (∀ (t : MajorType) (a : Nat), a < 2 ^ 64 →
      ((headerBytes t a).length = 1 ∧ a < 24) ∨
      ((headerBytes t a).length = 2 ∧ 24 ≤ a ∧ a ≤ 0xff) ∨
      ((headerBytes t a).length = 3 ∧ 0xff < a ∧ a ≤ 0xffff) ∨
      ((headerBytes t a).length = 5 ∧ 0xffff < a ∧ a ≤ 0xffffffff) ∨
      ((headerBytes t a).length = 9 ∧ 0xffffffff < a)) ∧
    (∀ (e : Encoder) (key : List Nat) (v : Int),
      (headerBytes .kTextString key.length).length + key.length +
        (intValueBytes v).length ≤ e.remaining →
      (writeInt e key v).2.data =
        e.data ++ (headerBytes .kTextString key.length ++ key) ++ intValueBytes v) ∧
    intValueBytes 0 = [0x00] ∧
    intValueBytes 23 = [0x17] ∧
    intValueBytes 24 = [0x18, 0x18] ∧
    intValueBytes 256 = [0x19, 0x01, 0x00] ∧
    intValueBytes (-1) = [0x20] ∧
    intValueBytes (-10) = [0x29] ∧
    intValueBytes (-100) = [0x38, 0x63] := by
  refine ⟨?_, ?_, rfl, rfl, rfl, rfl, rfl, rfl, rfl⟩
  · intro t a ha
    unfold headerBytes
    split_ifs with c0 c1 c2 c3 <;> simp [beBytes_length] <;> omega
  · intro e key v h
    rw [writeInt_of_cap e key v h]

/-- Witness for C4: the width ladder at argument 300, and `WriteInt` of
256 under key `"k"` into a fresh 16-byte buffer. -/
theorem C4_minimal_width_headers_witness :
    ((300 : Nat) < 2 ^ 64) ∧
    (((headerBytes .kUnsignedInt 300).length = 1 ∧ 300 < 24) ∨
      ((headerBytes .kUnsignedInt 300).length = 2 ∧ 24 ≤ 300 ∧ 300 ≤ 0xff) ∨
      ((headerBytes .kUnsignedInt 300).length = 3 ∧ 0xff < 300 ∧ 300 ≤ 0xffff) ∨
      ((headerBytes .kUnsignedInt 300).length = 5 ∧ 0xffff < 300 ∧ 300 ≤ 0xffffffff) ∨
      ((headerBytes .kUnsignedInt 300).length = 9 ∧ 0xffffffff < 300)) ∧
    ((headerBytes .kTextString ([0x6b] : List Nat).length).length +
      ([0x6b] : List Nat).length + (intValueBytes 256).length ≤
        (Encoder.init 16).remaining) ∧
    (writeInt (Encoder.init 16) [0x6b] 256).2.data =
      (Encoder.init 16).data ++
        (headerBytes .kTextString ([0x6b] : List Nat).length ++ [0x6b]) ++
        intValueBytes 256 :=
  ⟨by norm_num,
   C4_minimal_width_headers.1 .kUnsignedInt 300 (by norm_num),
   by decide,
   C4_minimal_width_headers.2.1 (Encoder.init 16) [0x6b] 256 (by decide)⟩

end PbCbor

/-!  ## Ledger editor lemmas and claims C5-C10 -/

namespace PbLedger

open PbCbor

theorem allocateBuffer_entries (s : LedgerEditor) (k : Nat) :
    (allocateBuffer s k).2.entries = s.entries := by
  unfold allocateBuffer; split <;> rfl

theorem importLoop_invariant (existing : Nat) (n : Nat) :
    ∀ (s : LedgerEditor) (pos : Nat),
      s.entries.length ≤ kMaxLedgerProperties →
      (∀ e ∈ s.entries, ImportedOk e) →
      (importLoop existing n s pos).entries.length ≤ kMaxLedgerProperties ∧
      (∀ e ∈ (importLoop existing n s pos).entries, ImportedOk e) := by
  induction n with
  | zero => intro s pos h1 h2; exact ⟨h1, h2⟩
  | succ n ih =>
    intro s pos h1 h2
    unfold importLoop
    by_cases hc : kMaxLedgerProperties ≤ s.entries.length
    · rw [if_pos hc]; exact ⟨h1, h2⟩
    · rw [if_neg hc]
      have step : ∀ (bufX : List Nat) (entX : List PropertyEntry) (usedX : Nat)
          (x : PropertyEntry) (p : Nat), entX = s.entries → ImportedOk x →
          (importLoop existing n ⟨bufX, entX ++ [x], usedX⟩ p).entries.length ≤
            kMaxLedgerProperties ∧
          (∀ e ∈ (importLoop existing n ⟨bufX, entX ++ [x], usedX⟩ p).entries,
            ImportedOk e) := by
        intro bufX entX usedX x p hent hx
        refine ih _ _ ?_ ?_
        · simp only [hent, List.length_append, List.length_singleton]
          simp only [kMaxLedgerProperties] at hc ⊢
          omega
        · intro e he
          simp only [hent, List.mem_append, List.mem_singleton] at he
          rcases he with he | he
          · exact h2 e he
          · subst he; exact hx
      have same : ∀ (bufX : List Nat) (entX : List PropertyEntry) (usedX : Nat)
          (p : Nat), entX = s.entries →
          (importLoop existing n ⟨bufX, entX, usedX⟩ p).entries.length ≤
            kMaxLedgerProperties ∧
          (∀ e ∈ (importLoop existing n ⟨bufX, entX, usedX⟩ p).entries,
            ImportedOk e) := by
        intro bufX entX usedX p hent
        refine ih _ _ (by simpa [hent] using h1) ?_
        intro e he
        simp only [hent] at he
        exact h2 e he
      split
      · exact ⟨h1, h2⟩
      next keyView p1 _ =>
        split
        · exact ⟨h1, h2⟩
        next off s1 halloc =>
          have hs1 : s1.entries = s.entries := by
            have h := allocateBuffer_entries s keyView.length
            rw [halloc] at h
            exact h
          dsimp only
          split
          · exact ⟨by simpa [hs1] using h1, by intro e he; simp only [hs1] at he; exact h2 e he⟩
          · split
            · split
              · exact step _ _ _ _ _ hs1 (by simp [ImportedOk])
              · exact step _ _ _ _ _ hs1 (by simp [ImportedOk])
            · split
              · exact step _ _ _ _ _ hs1 (by simp [ImportedOk])
              · exact step _ _ _ _ _ hs1 (by simp [ImportedOk])
            · split
              · exact step _ _ _ _ _ hs1 (by simp [ImportedOk])
              next len _ =>
                split
                · exact step _ _ _ _ _ hs1 (by simp [ImportedOk])
                next voff s4 halloc2 =>
                  have hs4 : s4.entries = s.entries := by
                    have h := allocateBuffer_entries
                      { s1 with buf := writeAt s1.buf off keyView } len
                    rw [halloc2] at h
                    rw [← hs1]
                    exact h
                  split
                  · exact step _ _ _ _ _ hs4 (by simp [ImportedOk])
                  · exact step _ _ _ _ _ hs4 (by simp [ImportedOk])
            · split
              · exact step _ _ _ _ _ hs1 (by simp [ImportedOk])
              next len _ =>
                split
                · exact step _ _ _ _ _ hs1 (by simp [ImportedOk])
                next voff s4 halloc2 =>
                  have hs4 : s4.entries = s.entries := by
                    have h := allocateBuffer_entries
                      { s1 with buf := writeAt s1.buf off keyView } len
                    rw [halloc2] at h
                    rw [← hs1]
                    exact h
                  split
                  · exact step _ _ _ _ _ hs4 (by simp [ImportedOk])
                  · exact step _ _ _ _ _ hs4 (by simp [ImportedOk])
            · split_ifs
              · exact step _ _ _ _ _ hs1 (by simp [ImportedOk])
              · exact step _ _ _ _ _ hs1 (by simp [ImportedOk])
              · exact step _ _ _ _ _ hs1 (by simp [ImportedOk])
              · split
                · exact step _ _ _ _ _ hs1 (by simp [ImportedOk])
                · exact step _ _ _ _ _ hs1 (by simp [ImportedOk])
                · exact step _ _ _ _ _ hs1 (by simp [ImportedOk])
              · exact step _ _ _ _ _ hs1 (by simp [ImportedOk])
            · exact same _ _ _ _ hs1

theorem writeAt_length (buf : List Nat) (off : Nat) (bs : List Nat)
    (h : off + bs.length ≤ buf.length) :
    (writeAt buf off bs).length = buf.length := by
  unfold writeAt
  simp [List.length_append, List.length_take, List.length_drop]
  omega

theorem writeAt_drop_ge (buf : List Nat) (off : Nat) (bs : List Nat) (o2 : Nat)
    (h1 : off + bs.length ≤ buf.length) (h2 : off + bs.length ≤ o2) :
    (writeAt buf off bs).drop o2 = buf.drop o2 := by
  unfold writeAt
  have hlen : ((buf.take off ++ bs)).length = off + bs.length := by
    simp [List.length_append, List.length_take]; omega
  have hsplit : o2 = (buf.take off ++ bs).length + (o2 - off - bs.length) := by omega
  rw [hsplit, List.append_assoc]
  rw [← List.append_assoc]
  rw [List.drop_append, List.drop_drop]
  congr 1
  omega

theorem writeAt_slice (buf : List Nat) (off : Nat) (bs : List Nat)
    (h : off + bs.length ≤ buf.length) :
    sliceOf (writeAt buf off bs) (off, bs.length) = bs := by
  unfold writeAt sliceOf
  have htake : (buf.take off).length = off := by
    simp [List.length_take]; omega
  rw [List.append_assoc, List.drop_left' htake, List.take_left' rfl]

theorem allocateBuffer_ok (s : LedgerEditor) (size : Nat)
    (h : s.used + size ≤ s.buf.length / 2) :
    allocateBuffer s size =
      (.ok (s.buf.length - s.used - size), { s with used := s.used + size }) := by
  unfold allocateBuffer
  rw [if_neg (by omega)]

theorem allocateBuffer_fail (s : LedgerEditor) (size : Nat)
    (h : s.buf.length / 2 < s.used + size) :
    allocateBuffer s size = (.error .resourceExhausted, s) := by
  unfold allocateBuffer
  rw [if_pos h]

/-- The allocator fails exactly when the cumulative arena usage would cross
the buffer midpoint. -/
theorem allocateBuffer_fail_iff (s : LedgerEditor) (size : Nat) :
    (allocateBuffer s size).1 = .error .resourceExhausted ↔
      s.buf.length / 2 < s.used + size := by
  unfold allocateBuffer
  split
  · simp; omega
  · simp; omega

theorem getD_set_eq (l : List PropertyEntry) (i j : Nat) (a : PropertyEntry) :
    (l.set i a).getD j {} =
      if i = j ∧ i < l.length then a else l.getD j {} := by
  by_cases he : i = j
  · by_cases hl : i < l.length
    · rw [if_pos ⟨he, hl⟩]
      subst he
      simp [List.getD_eq_getElem?_getD, List.getElem?_set, hl]
    · rw [if_neg (by tauto)]
      subst he
      rw [List.set_eq_of_length_le (by omega)]
  · rw [if_neg (by tauto)]
    simp [List.getD_eq_getElem?_getD, List.getElem?_set, he]

theorem getD_mem_of_lt (l : List PropertyEntry) (i : Nat) (h : i < l.length) :
    l.getD i {} ∈ l := by
  rw [List.getD_eq_getElem?_getD, List.getElem?_eq_getElem h]
  simp only [Option.getD_some]
  exact List.getElem_mem h

theorem keyBytes_eq_of_key (buf : List Nat) (e1 e2 : PropertyEntry)
    (h : e1.key = e2.key) : keyBytes buf e1 = keyBytes buf e2 := by
  unfold keyBytes sliceOf
  rw [h]

theorem find_none (s : LedgerEditor) (k : List Nat) (h : find s k = none) :
    ∀ e ∈ s.entries, e.removed = false → keyBytes s.buf e ≠ k := by
  unfold find at h
  rw [List.findIdx?_eq_none_iff] at h
  intro e he hrem hkey
  have hp := h e he
  rw [hrem, hkey] at hp
  simp at hp

/-- `updateEntry` with a field update that keeps `key` and either keeps
`removed` or tombstones preserves the two editor invariants. -/
theorem updateEntry_inv (s : LedgerEditor) (i : Nat) (f : PropertyEntry → PropertyEntry)
    (hkey : ∀ e, (f e).key = e.key)
    (hrem : ∀ e, (f e).removed = e.removed ∨ (f e).removed = true)
    (hWf : Wf s) (hU : uniqueKeys s) :
    Wf (updateEntry s i f) ∧ uniqueKeys (updateEntry s i f) := by
  by_cases hi : i < s.entries.length
  case neg =>
    have hE : updateEntry s i f = s := by
      unfold updateEntry
      rw [List.set_eq_of_length_le (by omega)]
    rw [hE]
    exact ⟨hWf, hU⟩
  case pos =>
    constructor
    · refine ⟨hWf.1, ?_⟩
      intro e he
      unfold updateEntry at he
      rcases List.mem_or_eq_of_mem_set he with he | he
      · exact hWf.2 e he
      · subst he
        rw [hkey]
        exact hWf.2 _ (getD_mem_of_lt _ _ hi)
    · intro i' j' hi' hj' hne hr1 hr2
      unfold updateEntry at hi' hj' hr1 hr2 ⊢
      dsimp only at hi' hj' hr1 hr2 ⊢
      simp only [List.length_set] at hi' hj'
      rw [getD_set_eq] at hr1
      rw [getD_set_eq] at hr2
      rw [getD_set_eq s.entries i i']
      rw [getD_set_eq s.entries i j']
      by_cases hii : i = i' ∧ i < s.entries.length
      · rw [if_pos hii] at hr1 ⊢
        by_cases hij : i = j' ∧ i < s.entries.length
        · exact absurd (hii.1.symm.trans hij.1) hne
        · rw [if_neg hij] at hr2 ⊢
          have hrold : (s.entries.getD i {}).removed = false := by
            rcases hrem (s.entries.getD i {}) with hh | hh
            · rw [← hh]; exact hr1
            · rw [hh] at hr1; exact absurd hr1 (by simp)
          rw [keyBytes_eq_of_key s.buf _ _ (hkey (s.entries.getD i {}))]
          obtain ⟨h1, _⟩ := hii
          subst h1
          exact hU i j' hi' hj' hne hrold hr2
      · rw [if_neg hii] at hr1 ⊢
        by_cases hij : i = j' ∧ i < s.entries.length
        · rw [if_pos hij] at hr2 ⊢
          have hrold : (s.entries.getD i {}).removed = false := by
            rcases hrem (s.entries.getD i {}) with hh | hh
            · rw [← hh]; exact hr2
            · rw [hh] at hr2; exact absurd hr2 (by simp)
          rw [keyBytes_eq_of_key s.buf _ _ (hkey (s.entries.getD i {}))]
          obtain ⟨h1, _⟩ := hij
          subst h1
          exact hU i' i hi' hj' hne hr1 hrold
        · rw [if_neg hij] at hr2 ⊢
          exact hU i' j' hi' hj' hne hr1 hr2

theorem getD_append_last (l : List PropertyEntry) (x : PropertyEntry) :
    (l ++ [x]).getD l.length {} = x := by
  rw [List.getD_append_right _ _ _ _ le_rfl]
  simp

theorem find_some (s : LedgerEditor) (k : List Nat) (j : Nat)
    (h : find s k = some j) :
    j < s.entries.length ∧ (s.entries.getD j {}).removed = false ∧
      keyBytes s.buf (s.entries.getD j {}) = k := by
  unfold find at h
  rw [List.findIdx?_eq_some_iff_getElem] at h
  obtain ⟨hlt, hp, _⟩ := h
  have hg : s.entries.getD j {} = s.entries[j] := by
    rw [List.getD_eq_getElem?_getD, List.getElem?_eq_getElem hlt]
    simp
  rw [Bool.and_eq_true, Bool.not_eq_true', beq_iff_eq] at hp
  exact ⟨hlt, by rw [hg]; exact hp.1, by rw [hg]; exact hp.2⟩

theorem findIdx_removed_some (s : LedgerEditor) (j : Nat)
    (h : s.entries.findIdx? (fun e => e.removed) = some j) :
    j < s.entries.length ∧ (s.entries.getD j {}).removed = true := by
  rw [List.findIdx?_eq_some_iff_getElem] at h
  obtain ⟨hlt, hp, _⟩ := h
  have hg : s.entries.getD j {} = s.entries[j] := by
    rw [List.getD_eq_getElem?_getD, List.getElem?_eq_getElem hlt]
    simp
  exact ⟨hlt, by rw [hg]; exact hp⟩

theorem keyBytes_writeAt (s : LedgerEditor) (bs : List Nat) (e : PropertyEntry)
    (hWf : Wf s) (he : e ∈ s.entries) (hsz : s.used + bs.length ≤ s.buf.length) :
    keyBytes (writeAt s.buf (s.buf.length - s.used - bs.length) bs) e =
      keyBytes s.buf e := by
  unfold keyBytes sliceOf
  have hd := writeAt_drop_ge s.buf (s.buf.length - s.used - bs.length) bs e.key.1
    (by omega) (by have := (hWf.2 e he).1; omega)
  rw [hd]

theorem arena_step_inv (s : LedgerEditor) (bs : List Nat)
    (hcap : s.used + bs.length ≤ s.buf.length / 2)
    (hWf : Wf s) (hU : uniqueKeys s) :
    Wf ⟨writeAt s.buf (s.buf.length - s.used - bs.length) bs, s.entries,
      s.used + bs.length⟩ ∧
    uniqueKeys ⟨writeAt s.buf (s.buf.length - s.used - bs.length) bs, s.entries,
      s.used + bs.length⟩ := by
  have hlen2 : s.buf.length / 2 ≤ s.buf.length := Nat.div_le_self _ _
  have hF1 : (s.buf.length - s.used - bs.length) + bs.length ≤ s.buf.length := by
    omega
  have hF2 := writeAt_length s.buf (s.buf.length - s.used - bs.length) bs hF1
  constructor
  · constructor
    · show s.used + bs.length ≤ (writeAt s.buf _ bs).length
      rw [hF2]; omega
    · intro e he
      have hb := hWf.2 e he
      show (writeAt s.buf _ bs).length - (s.used + bs.length) ≤ e.key.1 ∧
        e.key.1 + e.key.2 ≤ (writeAt s.buf _ bs).length
      rw [hF2]
      omega
  · intro i' j' hi hj hne h1 h2
    dsimp only at hi hj h1 h2 ⊢
    rw [keyBytes_writeAt s bs _ hWf (getD_mem_of_lt _ _ hi) (by omega),
      keyBytes_writeAt s bs _ hWf (getD_mem_of_lt _ _ hj) (by omega)]
    exact hU i' j' hi hj hne h1 h2

theorem findOrCreate_inv (s : LedgerEditor) (k : List Nat) (i : Nat) (s' : LedgerEditor)
    (hWf : Wf s) (hU : uniqueKeys s)
    (h : findOrCreate s k = (.ok i, s')) :
    Wf s' ∧ uniqueKeys s' ∧ i < s'.entries.length ∧
    (s'.entries.getD i {}).removed = false ∧
    keyBytes s'.buf (s'.entries.getD i {}) = k := by
  unfold findOrCreate at h
  cases hfind : find s k with
  | some j =>
    rw [hfind] at h
    dsimp only at h
    obtain ⟨hj, hrem, hkey⟩ := find_some s k j hfind
    simp only [Prod.mk.injEq, Except.ok.injEq] at h
    obtain ⟨hji, hs⟩ := h
    subst hji
    subst hs
    exact ⟨hWf, hU, hj, hrem, hkey⟩
  | none =>
    rw [hfind] at h
    dsimp only at h
    have hnone := find_none s k hfind
    cases hidx : s.entries.findIdx? (fun e => e.removed) with
    | some j =>
      rw [hidx] at h
      dsimp only at h
      obtain ⟨hj, _⟩ := findIdx_removed_some s j hidx
      by_cases hcap : s.used + k.length ≤ s.buf.length / 2
      · rw [allocateBuffer_ok _ _ (by exact hcap)] at h
        dsimp only at h
        simp only [Prod.mk.injEq, Except.ok.injEq] at h
        obtain ⟨hji, hs⟩ := h
        subst hji
        rw [getD_set_eq, if_pos ⟨rfl, hj⟩, List.set_set] at hs
        subst hs
        have hlen2 : s.buf.length / 2 ≤ s.buf.length := Nat.div_le_self _ _
        have hF1 : (s.buf.length - s.used - k.length) + k.length ≤ s.buf.length := by
          omega
        have hF2 := writeAt_length s.buf (s.buf.length - s.used - k.length) k hF1
        have hslice := writeAt_slice s.buf (s.buf.length - s.used - k.length) k hF1
        refine ⟨⟨?_, ?_⟩, ?_, ?_, ?_, ?_⟩
        · show s.used + k.length ≤ (writeAt s.buf _ k).length
          rw [hF2]; omega
        · intro e he
          dsimp only at he
          show (writeAt s.buf _ k).length - (s.used + k.length) ≤ e.key.1 ∧
            e.key.1 + e.key.2 ≤ (writeAt s.buf _ k).length
          rw [hF2]
          rcases List.mem_or_eq_of_mem_set he with he | he
          · have := hWf.2 e he
            omega
          · subst he
            dsimp only
            omega
        · intro i' j' hi hj' hne h1 h2
          dsimp only at hi hj' h1 h2 ⊢
          simp only [List.length_set] at hi hj'
          rw [getD_set_eq] at h1
          rw [getD_set_eq] at h2
          rw [getD_set_eq s.entries j i']
          rw [getD_set_eq s.entries j j']
          by_cases hii : j = i' ∧ j < s.entries.length
          · rw [if_pos hii] at h1 ⊢
            by_cases hij : j = j' ∧ j < s.entries.length
            · exact absurd (hii.1.symm.trans hij.1) hne
            · rw [if_neg hij] at h2 ⊢
              have hkold := keyBytes_writeAt s k (s.entries.getD j' {}) hWf
                (getD_mem_of_lt _ _ hj') (by omega)
              show sliceOf _ (s.buf.length - s.used - k.length, k.length) ≠
                keyBytes _ (s.entries.getD j' {})
              rw [hslice, hkold]
              exact fun hk =>
                hnone _ (getD_mem_of_lt _ _ hj') h2 hk.symm
          · rw [if_neg hii] at h1 ⊢
            by_cases hij : j = j' ∧ j < s.entries.length
            · rw [if_pos hij] at h2 ⊢
              have hkold := keyBytes_writeAt s k (s.entries.getD i' {}) hWf
                (getD_mem_of_lt _ _ hi) (by omega)
              show keyBytes _ (s.entries.getD i' {}) ≠
                sliceOf _ (s.buf.length - s.used - k.length, k.length)
              rw [hslice, hkold]
              exact hnone _ (getD_mem_of_lt _ _ hi) h1
            · rw [if_neg hij] at h2 ⊢
              rw [keyBytes_writeAt s k _ hWf (getD_mem_of_lt _ _ hi) (by omega),
                keyBytes_writeAt s k _ hWf (getD_mem_of_lt _ _ hj') (by omega)]
              exact hU i' j' hi hj' hne h1 h2
        · show j < (s.entries.set j _).length
          rw [List.length_set]
          exact hj
        · rw [getD_set_eq, if_pos ⟨rfl, hj⟩]
        · rw [getD_set_eq, if_pos ⟨rfl, hj⟩]
          exact hslice
      · rw [allocateBuffer_fail _ _ (by exact Nat.lt_of_not_le hcap)] at h
        dsimp only at h
        simp at h
    | none =>
      rw [hidx] at h
      dsimp only at h
      by_cases hfull : kMaxLedgerProperties ≤ s.entries.length
      · rw [if_pos hfull] at h
        simp at h
      · rw [if_neg hfull] at h
        by_cases hcap : s.used + k.length ≤ s.buf.length / 2
        · rw [allocateBuffer_ok _ _ (by exact hcap)] at h
          dsimp only at h
          simp only [Prod.mk.injEq, Except.ok.injEq] at h
          obtain ⟨hji, hs⟩ := h
          subst hji
          subst hs
          have hlen2 : s.buf.length / 2 ≤ s.buf.length := Nat.div_le_self _ _
          have hF1 : (s.buf.length - s.used - k.length) + k.length ≤ s.buf.length := by
            omega
          have hF2 := writeAt_length s.buf (s.buf.length - s.used - k.length) k hF1
          have hslice := writeAt_slice s.buf (s.buf.length - s.used - k.length) k hF1
          refine ⟨⟨?_, ?_⟩, ?_, ?_, ?_, ?_⟩
          · show s.used + k.length ≤ (writeAt s.buf _ k).length
            rw [hF2]; omega
          · intro e he
            dsimp only at he
            show (writeAt s.buf _ k).length - (s.used + k.length) ≤ e.key.1 ∧
              e.key.1 + e.key.2 ≤ (writeAt s.buf _ k).length
            rw [hF2]
            rcases List.mem_append.mp he with he | he
            · have := hWf.2 e he
              omega
            · rw [List.mem_singleton] at he
              subst he
              dsimp only
              omega
          · intro i' j' hi hj' hne h1 h2
            dsimp only at hi hj' h1 h2 ⊢
            simp only [List.length_append, List.length_singleton] at hi hj'
            rcases Nat.lt_succ_iff_lt_or_eq.mp hi with hi | hi
            · rcases Nat.lt_succ_iff_lt_or_eq.mp hj' with hj' | hj'
              · rw [List.getD_append _ _ _ _ hi] at h1 ⊢
                rw [List.getD_append _ _ _ _ hj'] at h2 ⊢
                rw [keyBytes_writeAt s k _ hWf (getD_mem_of_lt _ _ hi) (by omega),
                  keyBytes_writeAt s k _ hWf (getD_mem_of_lt _ _ hj') (by omega)]
                exact hU i' j' hi hj' hne h1 h2
              · subst hj'
                rw [List.getD_append _ _ _ _ hi] at h1 ⊢
                rw [getD_append_last] at h2 ⊢
                have hkold := keyBytes_writeAt s k (s.entries.getD i' {}) hWf
                  (getD_mem_of_lt _ _ hi) (by omega)
                show keyBytes _ (s.entries.getD i' {}) ≠
                  sliceOf _ (s.buf.length - s.used - k.length, k.length)
                rw [hslice, hkold]
                exact hnone _ (getD_mem_of_lt _ _ hi) h1
            · subst hi
              rcases Nat.lt_succ_iff_lt_or_eq.mp hj' with hj' | hj'
              · rw [getD_append_last] at h1 ⊢
                rw [List.getD_append _ _ _ _ hj'] at h2 ⊢
                have hkold := keyBytes_writeAt s k (s.entries.getD j' {}) hWf
                  (getD_mem_of_lt _ _ hj') (by omega)
                show sliceOf _ (s.buf.length - s.used - k.length, k.length) ≠
                  keyBytes _ (s.entries.getD j' {})
                rw [hslice, hkold]
                exact fun hk => hnone _ (getD_mem_of_lt _ _ hj') h2 hk.symm
              · subst hj'
                exact absurd rfl hne
          · show s.entries.length < (s.entries ++ [_]).length
            simp [List.length_append]
          · rw [getD_append_last]
          · rw [getD_append_last]
            exact hslice
        · rw [allocateBuffer_fail _ _ (by exact Nat.lt_of_not_le hcap)] at h
          dsimp only at h
          simp at h

theorem setBool_inv (s : LedgerEditor) (k : List Nat) (v : Bool)
    (hWf : Wf s) (hU : uniqueKeys s) (h : (setBool s k v).1 = .ok ()) :
    Wf (setBool s k v).2 ∧ uniqueKeys (setBool s k v).2 := by
  unfold setBool at h ⊢
  generalize hfc : findOrCreate s k = fc at h ⊢
  obtain ⟨r, s1⟩ := fc
  cases r with
  | error err => simp at h
  | ok i =>
    dsimp only
    obtain ⟨hWf1, hU1, _, _, _⟩ := findOrCreate_inv s k i s1 hWf hU hfc
    exact updateEntry_inv s1 i _ (fun e => rfl) (fun e => Or.inl rfl) hWf1 hU1

theorem setInt_inv (s : LedgerEditor) (k : List Nat) (v : Int)
    (hWf : Wf s) (hU : uniqueKeys s) (h : (setInt s k v).1 = .ok ()) :
    Wf (setInt s k v).2 ∧ uniqueKeys (setInt s k v).2 := by
  unfold setInt at h ⊢
  generalize hfc : findOrCreate s k = fc at h ⊢
  obtain ⟨r, s1⟩ := fc
  cases r with
  | error err => simp at h
  | ok i =>
    dsimp only
    obtain ⟨hWf1, hU1, _, _, _⟩ := findOrCreate_inv s k i s1 hWf hU hfc
    refine updateEntry_inv s1 i _ (fun e => ?_) (fun e => ?_) hWf1 hU1
    · dsimp only; split <;> rfl
    · dsimp only; split <;> exact Or.inl rfl

theorem setUint_inv (s : LedgerEditor) (k : List Nat) (v : Nat)
    (hWf : Wf s) (hU : uniqueKeys s) (h : (setUint s k v).1 = .ok ()) :
    Wf (setUint s k v).2 ∧ uniqueKeys (setUint s k v).2 := by
  unfold setUint at h ⊢
  generalize hfc : findOrCreate s k = fc at h ⊢
  obtain ⟨r, s1⟩ := fc
  cases r with
  | error err => simp at h
  | ok i =>
    dsimp only
    obtain ⟨hWf1, hU1, _, _, _⟩ := findOrCreate_inv s k i s1 hWf hU hfc
    exact updateEntry_inv s1 i _ (fun e => rfl) (fun e => Or.inl rfl) hWf1 hU1

theorem setDouble_inv (s : LedgerEditor) (k : List Nat) (bits : Nat)
    (hWf : Wf s) (hU : uniqueKeys s) (h : (setDouble s k bits).1 = .ok ()) :
    Wf (setDouble s k bits).2 ∧ uniqueKeys (setDouble s k bits).2 := by
  unfold setDouble at h ⊢
  generalize hfc : findOrCreate s k = fc at h ⊢
  obtain ⟨r, s1⟩ := fc
  cases r with
  | error err => simp at h
  | ok i =>
    dsimp only
    obtain ⟨hWf1, hU1, _, _, _⟩ := findOrCreate_inv s k i s1 hWf hU hfc
    exact updateEntry_inv s1 i _ (fun e => rfl) (fun e => Or.inl rfl) hWf1 hU1

theorem setString_inv (s : LedgerEditor) (k value : List Nat)
    (hWf : Wf s) (hU : uniqueKeys s) (h : (setString s k value).1 = .ok ()) :
    Wf (setString s k value).2 ∧ uniqueKeys (setString s k value).2 := by
  unfold setString at h ⊢
  generalize hfc : findOrCreate s k = fc at h ⊢
  obtain ⟨r, s1⟩ := fc
  cases r with
  | error err => simp at h
  | ok i =>
    dsimp only at h ⊢
    obtain ⟨hWf1, hU1, _, _, _⟩ := findOrCreate_inv s k i s1 hWf hU hfc
    by_cases hcap : s1.used + value.length ≤ s1.buf.length / 2
    · rw [allocateBuffer_ok _ _ hcap] at h ⊢
      dsimp only at h ⊢
      have harena := arena_step_inv s1 value hcap hWf1 hU1
      exact updateEntry_inv _ i _ (fun e => rfl) (fun e => Or.inl rfl)
        harena.1 harena.2
    · rw [allocateBuffer_fail _ _ (Nat.lt_of_not_le hcap)] at h
      simp at h

theorem setBytes_inv (s : LedgerEditor) (k value : List Nat)
    (hWf : Wf s) (hU : uniqueKeys s) (h : (setBytes s k value).1 = .ok ()) :
    Wf (setBytes s k value).2 ∧ uniqueKeys (setBytes s k value).2 := by
  unfold setBytes at h ⊢
  generalize hfc : findOrCreate s k = fc at h ⊢
  obtain ⟨r, s1⟩ := fc
  cases r with
  | error err => simp at h
  | ok i =>
    dsimp only at h ⊢
    obtain ⟨hWf1, hU1, _, _, _⟩ := findOrCreate_inv s k i s1 hWf hU hfc
    by_cases hcap : s1.used + value.length ≤ s1.buf.length / 2
    · rw [allocateBuffer_ok _ _ hcap] at h ⊢
      dsimp only at h ⊢
      have harena := arena_step_inv s1 value hcap hWf1 hU1
      exact updateEntry_inv _ i _ (fun e => rfl) (fun e => Or.inl rfl)
        harena.1 harena.2
    · rw [allocateBuffer_fail _ _ (Nat.lt_of_not_le hcap)] at h
      simp at h

theorem remove_inv (s : LedgerEditor) (k : List Nat)
    (hWf : Wf s) (hU : uniqueKeys s) :
    Wf (remove s k).2 ∧ uniqueKeys (remove s k).2 := by
  unfold remove
  rcases hfind : find s k with _ | i
  · exact ⟨hWf, hU⟩
  · dsimp only
    exact updateEntry_inv s i _ (fun e => rfl) (fun e => Or.inr rfl) hWf hU

theorem mkEditor_empty_inv (buf : List Nat) :
    Wf (mkEditor buf 0) ∧ uniqueKeys (mkEditor buf 0) := by
  unfold mkEditor
  rw [if_pos rfl]
  constructor
  · exact ⟨Nat.zero_le _, by intro e he; simp at he⟩
  · intro i j hi hj
    simp at hi

theorem reachOk_inv (s : LedgerEditor) (h : ReachOk s) : Wf s ∧ uniqueKeys s := by
  induction h with
  | init buf => exact mkEditor_empty_inv buf
  | stepSetBool s key v _ hok ih => exact setBool_inv s key v ih.1 ih.2 hok
  | stepSetInt s key v _ hok ih => exact setInt_inv s key v ih.1 ih.2 hok
  | stepSetUint s key v _ hok ih => exact setUint_inv s key v ih.1 ih.2 hok
  | stepSetDouble s key bits _ hok ih => exact setDouble_inv s key bits ih.1 ih.2 hok
  | stepSetString s key value _ hok ih => exact setString_inv s key value ih.1 ih.2 hok
  | stepSetBytes s key value _ hok ih => exact setBytes_inv s key value ih.1 ih.2 hok
  | stepRemove s key _ ih => exact remove_inv s key ih.1 ih.2

/-- C6 counterexample: two reachable states break key uniqueness.  First,
construction over a blob whose map holds the key `"a"` twice imports two
live entries with equal keys (the import loop performs no duplicate
check).  Second, even from an empty construction, after the tombstone
shuffle `c6shuffle` a SetUint of the new key `"c"` fails its key
allocation with ResourceExhausted — but FindOrCreate already cleared
`removed` on tombstone slot 1, resurrecting it with its stale key `"b"`,
so two live entries are both keyed `"b"`. -/
theorem C6_counterexample_duplicate_keys :
    (¬ uniqueKeys (mkEditor
      ([0xa2, 0x61, 0x61, 0x01, 0x61, 0x61, 0x02] ++ List.replicate 25 0) 7)) ∧
    (setUint c6shuffle [99] 1).1 = .error .resourceExhausted ∧
    (setUint c6shuffle [99] 1).2.entries.length = 2 ∧
    ((setUint c6shuffle [99] 1).2.entries.getD 0 {}).removed = false ∧
    ((setUint c6shuffle [99] 1).2.entries.getD 1 {}).removed = false ∧
    keyBytes (setUint c6shuffle [99] 1).2.buf
      ((setUint c6shuffle [99] 1).2.entries.getD 0 {}) = [98] ∧
    keyBytes (setUint c6shuffle [99] 1).2.buf
      ((setUint c6shuffle [99] 1).2.entries.getD 1 {}) = [98] ∧
    ¬ uniqueKeys (setUint c6shuffle [99] 1).2 :=
  ⟨fun h =>
    h 0 1 (by decide) (by decide) (by decide) (by decide) (by decide) (by decide),
   rfl, rfl, rfl, rfl, rfl, rfl,
   fun h =>
    h 0 1 (by decide) (by decide) (by decide) (by decide) (by decide) (by decide)⟩

/-- C6 (amended): after construction over an empty buffer and any sequence
of mutations in which every `Set` call returned OK (`Remove` always
succeeds), no two non-removed entries have equal keys.  Construction over
existing bytes can import duplicate keys, and a `Set` that fails during
tombstone reuse can resurrect a stale key, so those states are excluded. -/
theorem C6_unique_keys_reachable (s : LedgerEditor) (h : ReachOk s) :
    uniqueKeys s :=
  (reachOk_inv s h).2

/-- Witness for C6: an editing session over a fresh 8-byte buffer — two
keys set, one overwritten, one removed. -/
theorem C6_unique_keys_reachable_witness :
    uniqueKeys (remove (setBool (setUint (mkEditor (List.replicate 8 0) 0)
      [0x61] 1).2 [0x62] true).2 [0x61]).2 :=
  C6_unique_keys_reachable _
    (.stepRemove _ _
      (.stepSetBool _ _ _ (.stepSetUint _ _ _ (.init _) rfl) rfl))

theorem mkEditor_entries_le (buf : List Nat) (existingSize : Nat) :
    (mkEditor buf existingSize).entries.length ≤ kMaxLedgerProperties ∧
    ∀ e ∈ (mkEditor buf existingSize).entries, ImportedOk e := by
  unfold mkEditor
  by_cases hex : existingSize = 0
  · rw [if_pos hex]
    exact ⟨by simp [kMaxLedgerProperties], by intro e he; simp at he⟩
  · rw [if_neg hex]
    cases hm : readMapHeader (buf.take existingSize) 0 with
    | mk r p =>
      cases r with
      | error err =>
        exact ⟨by simp [kMaxLedgerProperties], by intro e he; simp at he⟩
      | ok count =>
        exact importLoop_invariant existingSize count _ p
          (by simp [kMaxLedgerProperties]) (by intro e he; simp at he)

theorem findOrCreate_length_le (s : LedgerEditor) (k : List Nat)
    (h : s.entries.length ≤ kMaxLedgerProperties) :
    (findOrCreate s k).2.entries.length ≤ kMaxLedgerProperties := by
  unfold findOrCreate
  cases hfind : find s k with
  | some j => exact h
  | none =>
    cases hidx : s.entries.findIdx? (fun e => e.removed) with
    | some j =>
      dsimp only
      by_cases hcap : s.used + k.length ≤ s.buf.length / 2
      · rw [allocateBuffer_ok _ _ (by exact hcap)]
        simpa using h
      · rw [allocateBuffer_fail _ _ (by exact Nat.lt_of_not_le hcap)]
        simpa using h
    | none =>
      dsimp only
      by_cases hfull : kMaxLedgerProperties ≤ s.entries.length
      · rw [if_pos hfull]
        exact h
      · rw [if_neg hfull]
        by_cases hcap : s.used + k.length ≤ s.buf.length / 2
        · rw [allocateBuffer_ok _ _ (by exact hcap)]
          simp only [List.length_append, List.length_singleton]
          omega
        · rw [allocateBuffer_fail _ _ (by exact Nat.lt_of_not_le hcap)]
          exact h

theorem setBool_length_le (s : LedgerEditor) (k : List Nat) (v : Bool)
    (h : s.entries.length ≤ kMaxLedgerProperties) :
    (setBool s k v).2.entries.length ≤ kMaxLedgerProperties := by
  unfold setBool
  have hf := findOrCreate_length_le s k h
  generalize hfc : findOrCreate s k = fc at hf ⊢
  obtain ⟨r, s1⟩ := fc
  cases r with
  | error err => exact hf
  | ok i =>
    dsimp only at hf ⊢
    unfold updateEntry
    simpa using hf

theorem setInt_length_le (s : LedgerEditor) (k : List Nat) (v : Int)
    (h : s.entries.length ≤ kMaxLedgerProperties) :
    (setInt s k v).2.entries.length ≤ kMaxLedgerProperties := by
  unfold setInt
  have hf := findOrCreate_length_le s k h
  generalize hfc : findOrCreate s k = fc at hf ⊢
  obtain ⟨r, s1⟩ := fc
  cases r with
  | error err => exact hf
  | ok i =>
    dsimp only at hf ⊢
    unfold updateEntry
    simpa using hf

theorem setUint_length_le (s : LedgerEditor) (k : List Nat) (v : Nat)
    (h : s.entries.length ≤ kMaxLedgerProperties) :
    (setUint s k v).2.entries.length ≤ kMaxLedgerProperties := by
  unfold setUint
  have hf := findOrCreate_length_le s k h
  generalize hfc : findOrCreate s k = fc at hf ⊢
  obtain ⟨r, s1⟩ := fc
  cases r with
  | error err => exact hf
  | ok i =>
    dsimp only at hf ⊢
    unfold updateEntry
    simpa using hf

theorem setDouble_length_le (s : LedgerEditor) (k : List Nat) (bits : Nat)
    (h : s.entries.length ≤ kMaxLedgerProperties) :
    (setDouble s k bits).2.entries.length ≤ kMaxLedgerProperties := by
  unfold setDouble
  have hf := findOrCreate_length_le s k h
  generalize hfc : findOrCreate s k = fc at hf ⊢
  obtain ⟨r, s1⟩ := fc
  cases r with
  | error err => exact hf
  | ok i =>
    dsimp only at hf ⊢
    unfold updateEntry
    simpa using hf

theorem setString_length_le (s : LedgerEditor) (k value : List Nat)
    (h : s.entries.length ≤ kMaxLedgerProperties) :
    (setString s k value).2.entries.length ≤ kMaxLedgerProperties := by
  unfold setString
  have hf := findOrCreate_length_le s k h
  generalize hfc : findOrCreate s k = fc at hf ⊢
  obtain ⟨r, s1⟩ := fc
  cases r with
  | error err => exact hf
  | ok i =>
    dsimp only at hf ⊢
    by_cases hcap : s1.used + value.length ≤ s1.buf.length / 2
    · rw [allocateBuffer_ok _ _ hcap]
      dsimp only
      unfold updateEntry
      simpa using hf
    · rw [allocateBuffer_fail _ _ (Nat.lt_of_not_le hcap)]
      exact hf

theorem setBytes_length_le (s : LedgerEditor) (k value : List Nat)
    (h : s.entries.length ≤ kMaxLedgerProperties) :
    (setBytes s k value).2.entries.length ≤ kMaxLedgerProperties := by
  unfold setBytes
  have hf := findOrCreate_length_le s k h
  generalize hfc : findOrCreate s k = fc at hf ⊢
  obtain ⟨r, s1⟩ := fc
  cases r with
  | error err => exact hf
  | ok i =>
    dsimp only at hf ⊢
    by_cases hcap : s1.used + value.length ≤ s1.buf.length / 2
    · rw [allocateBuffer_ok _ _ hcap]
      dsimp only
      unfold updateEntry
      simpa using hf
    · rw [allocateBuffer_fail _ _ (Nat.lt_of_not_le hcap)]
      exact hf

theorem remove_length_le (s : LedgerEditor) (k : List Nat)
    (h : s.entries.length ≤ kMaxLedgerProperties) :
    (remove s k).2.entries.length ≤ kMaxLedgerProperties := by
  unfold remove
  cases hfind : find s k with
  | some j =>
    dsimp only
    unfold updateEntry
    simpa using h
  | none => exact h

theorem reach_entries_le (s : LedgerEditor) (h : Reach s) :
    s.entries.length ≤ kMaxLedgerProperties := by
  induction h with
  | init buf ex => exact (mkEditor_entries_le buf ex).1
  | stepSetBool s key v _ ih => exact setBool_length_le s key v ih
  | stepSetInt s key v _ ih => exact setInt_length_le s key v ih
  | stepSetUint s key v _ ih => exact setUint_length_le s key v ih
  | stepSetDouble s key bits _ ih => exact setDouble_length_le s key bits ih
  | stepSetString s key value _ ih => exact setString_length_le s key value ih
  | stepSetBytes s key value _ ih => exact setBytes_length_le s key value ih
  | stepRemove s key _ ih => exact remove_length_le s key ih

set_option maxRecDepth 4000 in
/-- C7: at every reachable state `property_count()` is the number of
non-removed entries and never exceeds 16; with 16 live slots a `Set` with a
17th distinct key fails with ResourceExhausted and adds nothing, and after
removing one of the 16 a `Set` with a new key succeeds by reusing the
tombstoned slot (the entry array does not grow). -/
theorem C7_property_count_bounds :
    (∀ s : LedgerEditor, Reach s →
      propertyCount s = (s.entries.filter (fun e => !e.removed)).length ∧
      propertyCount s ≤ kMaxLedgerProperties) ∧
    propertyCount capacityScenario = 16 ∧
    (setBool capacityScenario [16] true).1 = .error .resourceExhausted ∧
    propertyCount (setBool capacityScenario [16] true).2 = 16 ∧
    propertyCount (remove capacityScenario [0]).2 = 15 ∧
    (setBool (remove capacityScenario [0]).2 [20] true).1 = .ok () ∧
    propertyCount (setBool (remove capacityScenario [0]).2 [20] true).2 = 16 ∧
    (setBool (remove capacityScenario [0]).2 [20] true).2.entries.length = 16 := by
  refine ⟨?_, rfl, rfl, rfl, rfl, rfl, rfl, rfl⟩
  intro s hs
  refine ⟨rfl, ?_⟩
  calc (s.entries.filter (fun e => !e.removed)).length
      ≤ s.entries.length := List.length_filter_le _ _
    _ ≤ kMaxLedgerProperties := reach_entries_le s hs

/-- Witness for C7 at a concretely constructed editor. -/
theorem C7_property_count_bounds_witness :
    propertyCount (mkEditor (List.replicate 4 0) 0) =
      ((mkEditor (List.replicate 4 0) 0).entries.filter
        (fun e => !e.removed)).length ∧
    propertyCount (mkEditor (List.replicate 4 0) 0) ≤ kMaxLedgerProperties :=
  C7_property_count_bounds.1 _ (.init _ _)

/-- C5: refuted on the code as written — importing the three-pair map
`a3 61 61 f7 61 62 1c 61 63 05` materializes three property entries.  The
unsupported simple value `f7` for key `"a"` still contributes a placeholder
entry (default type simple/float, simple_value 0), and the decode error on
key `"b"`'s reserved value byte `1c` neither stops the loop nor suppresses
the entry: the `break` statements in the value branches only exit the
`switch` and fall through to `++property_count_`, so the loop continues and
imports `"c": 5` as well.  The claim predicts the `f7` pair contributes no
entry and the decode error stops the import with one entry at most. -/
theorem C5_import_placeholder_entries :
    (mkEditor c5blob 10).entries.length = 3 ∧
    keyBytes (mkEditor c5blob 10).buf ((mkEditor c5blob 10).entries.getD 0 {}) = [97] ∧
    ((mkEditor c5blob 10).entries.getD 0 {}).type = .kSimpleFloat ∧
    ((mkEditor c5blob 10).entries.getD 0 {}).simpleValue = 0 ∧
    ((mkEditor c5blob 10).entries.getD 0 {}).removed = false ∧
    keyBytes (mkEditor c5blob 10).buf ((mkEditor c5blob 10).entries.getD 1 {}) = [98] ∧
    ((mkEditor c5blob 10).entries.getD 1 {}).type = .kUnsignedInt ∧
    ((mkEditor c5blob 10).entries.getD 1 {}).uintValue = 0 ∧
    ((mkEditor c5blob 10).entries.getD 1 {}).removed = false ∧
    keyBytes (mkEditor c5blob 10).buf ((mkEditor c5blob 10).entries.getD 2 {}) = [99] ∧
    ((mkEditor c5blob 10).entries.getD 2 {}).type = .kUnsignedInt ∧
    ((mkEditor c5blob 10).entries.getD 2 {}).uintValue = 5 ∧
    propertyCount (mkEditor c5blob 10) = 3 :=
  ⟨rfl, rfl, rfl, rfl, rfl, rfl, rfl, rfl, rfl, rfl, rfl, rfl, rfl⟩

theorem setString_readback (s : LedgerEditor) (key value : List Nat) (s2 : LedgerEditor)
    (hWf : Wf s) (hU : uniqueKeys s)
    (h : setString s key value = (.ok (), s2)) :
    ∃ i, i < s2.entries.length ∧
      (s2.entries.getD i {}).removed = false ∧
      (s2.entries.getD i {}).type = .kTextString ∧
      keyBytes s2.buf (s2.entries.getD i {}) = key ∧
      sliceOf s2.buf (s2.entries.getD i {}).spanValue = value := by
  unfold setString at h
  generalize hfc : findOrCreate s key = fc at h
  obtain ⟨r, s1⟩ := fc
  cases r with
  | error e => simp at h
  | ok i =>
    dsimp only at h
    obtain ⟨hWf1, _, hi, hrem, hkey⟩ := findOrCreate_inv s key i s1 hWf hU hfc
    by_cases hcap : s1.used + value.length ≤ s1.buf.length / 2
    · rw [allocateBuffer_ok _ _ hcap] at h
      dsimp only [updateEntry] at h
      simp only [Prod.mk.injEq, true_and] at h
      have hlen2 : s1.buf.length / 2 ≤ s1.buf.length := Nat.div_le_self _ _
      have hrange : (s1.buf.length - s1.used - value.length) + value.length ≤
          s1.buf.length := by omega
      refine ⟨i, ?_⟩
      rw [← h]
      dsimp only
      rw [getD_set_eq, if_pos ⟨rfl, hi⟩]
      refine ⟨by simpa using hi, hrem, rfl, ?_, ?_⟩
      · show sliceOf _ (s1.entries.getD i {}).key = key
        have := keyBytes_writeAt s1 value (s1.entries.getD i {}) hWf1
          (getD_mem_of_lt _ _ hi) (by omega)
        unfold keyBytes at this hkey
        rw [this, hkey]
      · exact writeAt_slice s1.buf _ value hrange
    · rw [allocateBuffer_fail _ _ (by omega)] at h
      simp at h

/-- C8: every arena allocation fails with ResourceExhausted exactly when the
cumulative usage would cross the buffer midpoint; within budget it succeeds,
handing out the block growing backward from the buffer end, and a successful
SetString leaves a live text entry whose key and value bytes read back
byte-for-byte identical to the inputs. -/
theorem C8_arena_half_buffer :
    (∀ (s : LedgerEditor) (size : Nat),
      ((allocateBuffer s size).1 = .error .resourceExhausted ↔
        s.buf.length / 2 < s.used + size) ∧
      (s.used + size ≤ s.buf.length / 2 →
        allocateBuffer s size =
          (.ok (s.buf.length - s.used - size),
           { s with used := s.used + size }))) ∧
    (∀ (s : LedgerEditor) (key value : List Nat) (s2 : LedgerEditor),
      Wf s → uniqueKeys s → setString s key value = (.ok (), s2) →
      ∃ i, i < s2.entries.length ∧
        (s2.entries.getD i {}).removed = false ∧
        (s2.entries.getD i {}).type = .kTextString ∧
        keyBytes s2.buf (s2.entries.getD i {}) = key ∧
        sliceOf s2.buf (s2.entries.getD i {}).spanValue = value) :=
  ⟨fun s size => ⟨allocateBuffer_fail_iff s size,
      fun h => allocateBuffer_ok s size h⟩,
   fun s key value s2 hWf hU h => setString_readback s key value s2 hWf hU h⟩

theorem C8_arena_half_buffer_witness :
    ((allocateBuffer (mkEditor (List.replicate 8 0) 0) 5).1 =
        .error .resourceExhausted ↔
      (mkEditor (List.replicate 8 0) 0).buf.length / 2 <
        (mkEditor (List.replicate 8 0) 0).used + 5) ∧
    (∃ i, i < ((setString (mkEditor (List.replicate 8 0) 0) [107] [1, 2, 3]).2).entries.length ∧
      (((setString (mkEditor (List.replicate 8 0) 0) [107] [1, 2, 3]).2).entries.getD i {}).removed = false ∧
      (((setString (mkEditor (List.replicate 8 0) 0) [107] [1, 2, 3]).2).entries.getD i {}).type = .kTextString ∧
      keyBytes ((setString (mkEditor (List.replicate 8 0) 0) [107] [1, 2, 3]).2).buf
        (((setString (mkEditor (List.replicate 8 0) 0) [107] [1, 2, 3]).2).entries.getD i {}) = [107] ∧
      sliceOf ((setString (mkEditor (List.replicate 8 0) 0) [107] [1, 2, 3]).2).buf
        (((setString (mkEditor (List.replicate 8 0) 0) [107] [1, 2, 3]).2).entries.getD i {}).spanValue = [1, 2, 3]) :=
  ⟨(C8_arena_half_buffer.1 (mkEditor (List.replicate 8 0) 0) 5).1,
   C8_arena_half_buffer.2 (mkEditor (List.replicate 8 0) 0) [107] [1, 2, 3] _
     (mkEditor_empty_inv (List.replicate 8 0)).1
     (mkEditor_empty_inv (List.replicate 8 0)).2
     rfl⟩

/-- C10 counterexample: on the tombstone-reuse path a failed value
allocation still returns ResourceExhausted with the entry resurrected and
property_count one higher, but the entry's type is its previous
unsigned-int, not the default simple/float the claim states. -/
theorem C10_counterexample_tombstone_keeps_type :
    (setString c10pre [109] [1, 2, 3, 4]).1 = .error .resourceExhausted ∧
    propertyCount c10pre = 0 ∧
    propertyCount (setString c10pre [109] [1, 2, 3, 4]).2 = 1 ∧
    ((setString c10pre [109] [1, 2, 3, 4]).2.entries.getD 0 {}).removed = false ∧
    keyBytes (setString c10pre [109] [1, 2, 3, 4]).2.buf
      ((setString c10pre [109] [1, 2, 3, 4]).2.entries.getD 0 {}) = [109] ∧
    ((setString c10pre [109] [1, 2, 3, 4]).2.entries.getD 0 {}).type = .kUnsignedInt ∧
    ((setString c10pre [109] [1, 2, 3, 4]).2.entries.getD 0 {}).simpleValue = 0 ∧
    ((setString c10pre [109] [1, 2, 3, 4]).2.entries.getD 0 {}).type ≠ .kSimpleFloat :=
  ⟨rfl, rfl, rfl, rfl, rfl, rfl, rfl, by decide⟩

theorem findOrCreate_fresh (s : LedgerEditor) (key : List Nat)
    (hNoTomb : ∀ e ∈ s.entries, e.removed = false)
    (hFind : find s key = none)
    (hLen : s.entries.length < kMaxLedgerProperties)
    (hKeyFits : s.used + key.length ≤ s.buf.length / 2) :
    findOrCreate s key =
      (.ok s.entries.length,
       ⟨writeAt s.buf (s.buf.length - s.used - key.length) key,
        s.entries ++ [{ key := (s.buf.length - s.used - key.length, key.length) }],
        s.used + key.length⟩) := by
  unfold findOrCreate
  rw [hFind]
  have hidx : s.entries.findIdx? (fun e => e.removed) = none := by
    rw [List.findIdx?_eq_none_iff]
    intro e he
    simp [hNoTomb e he]
  rw [hidx]
  dsimp only
  rw [if_neg (by omega), allocateBuffer_ok s key.length hKeyFits]

theorem value_alloc_fail_state (s : LedgerEditor) (key value : List Nat)
    (hNoTomb : ∀ e ∈ s.entries, e.removed = false)
    (hFind : find s key = none)
    (hLen : s.entries.length < kMaxLedgerProperties)
    (hKeyFits : s.used + key.length ≤ s.buf.length / 2)
    (hValFails : s.buf.length / 2 < s.used + key.length + value.length) :
    setString s key value =
      (.error .resourceExhausted,
       ⟨writeAt s.buf (s.buf.length - s.used - key.length) key,
        s.entries ++ [{ key := (s.buf.length - s.used - key.length, key.length) }],
        s.used + key.length⟩) ∧
    setBytes s key value =
      (.error .resourceExhausted,
       ⟨writeAt s.buf (s.buf.length - s.used - key.length) key,
        s.entries ++ [{ key := (s.buf.length - s.used - key.length, key.length) }],
        s.used + key.length⟩) := by
  have hfc := findOrCreate_fresh s key hNoTomb hFind hLen hKeyFits
  have hlen2 : s.buf.length / 2 ≤ s.buf.length := Nat.div_le_self _ _
  have hrange : (s.buf.length - s.used - key.length) + key.length ≤ s.buf.length := by
    omega
  have hblen := writeAt_length s.buf (s.buf.length - s.used - key.length) key hrange
  have hfail : s.buf.length / 2 < s.used + key.length + value.length := hValFails
  constructor
  · unfold setString
    rw [hfc]
    dsimp only
    rw [allocateBuffer_fail _ value.length (by dsimp only; rw [hblen]; omega)]
  · unfold setBytes
    rw [hfc]
    dsimp only
    rw [allocateBuffer_fail _ value.length (by dsimp only; rw [hblen]; omega)]

/-- C10: amended — with no tombstones, a key that has no live entry, a free
property slot, a key allocation that fits the arena budget and a value
allocation that does not, SetString and SetBytes return ResourceExhausted
with a live entry for that key already appended: property_count grows by
one, the new entry's key reads back as the argument, and its type is left at
the default simple/float with simple_value 0.  (On the tombstone-reuse path
the resurrected entry instead keeps its previous type and value fields, as
the counterexample shows.) -/
theorem C10_value_alloc_fail_default_entry (s : LedgerEditor) (key value : List Nat)
    (hNoTomb : ∀ e ∈ s.entries, e.removed = false)
    (hFind : find s key = none)
    (hLen : s.entries.length < kMaxLedgerProperties)
    (hKeyFits : s.used + key.length ≤ s.buf.length / 2)
    (hValFails : s.buf.length / 2 < s.used + key.length + value.length) :
    (setString s key value).1 = .error .resourceExhausted ∧
    (setBytes s key value).1 = .error .resourceExhausted ∧
    (setBytes s key value).2 = (setString s key value).2 ∧
    propertyCount (setString s key value).2 = propertyCount s + 1 ∧
    ((setString s key value).2.entries.getD s.entries.length {}).removed = false ∧
    ((setString s key value).2.entries.getD s.entries.length {}).type = .kSimpleFloat ∧
    ((setString s key value).2.entries.getD s.entries.length {}).simpleValue = 0 ∧
    keyBytes (setString s key value).2.buf
      ((setString s key value).2.entries.getD s.entries.length {}) = key := by
  obtain ⟨hss, hsb⟩ :=
    value_alloc_fail_state s key value hNoTomb hFind hLen hKeyFits hValFails
  have hlen2 : s.buf.length / 2 ≤ s.buf.length := Nat.div_le_self _ _
  have hrange : (s.buf.length - s.used - key.length) + key.length ≤ s.buf.length := by
    omega
  rw [hss, hsb]
  dsimp only
  refine ⟨rfl, rfl, rfl, ?_, ?_, ?_, ?_, ?_⟩
  · unfold propertyCount
    dsimp only
    rw [List.filter_append]
    simp
  · rw [getD_append_last]
  · rw [getD_append_last]
  · rw [getD_append_last]
  · rw [getD_append_last]
    exact writeAt_slice s.buf _ key hrange

theorem C10_value_alloc_fail_default_entry_witness :
    (setString (mkEditor (List.replicate 8 0) 0) [109] [1, 2, 3, 4]).1 =
        .error .resourceExhausted ∧
    (setBytes (mkEditor (List.replicate 8 0) 0) [109] [1, 2, 3, 4]).1 =
        .error .resourceExhausted ∧
    (setBytes (mkEditor (List.replicate 8 0) 0) [109] [1, 2, 3, 4]).2 =
        (setString (mkEditor (List.replicate 8 0) 0) [109] [1, 2, 3, 4]).2 ∧
    propertyCount (setString (mkEditor (List.replicate 8 0) 0) [109] [1, 2, 3, 4]).2 =
        propertyCount (mkEditor (List.replicate 8 0) 0) + 1 ∧
    ((setString (mkEditor (List.replicate 8 0) 0) [109] [1, 2, 3, 4]).2.entries.getD
        (mkEditor (List.replicate 8 0) 0).entries.length {}).removed = false ∧
    ((setString (mkEditor (List.replicate 8 0) 0) [109] [1, 2, 3, 4]).2.entries.getD
        (mkEditor (List.replicate 8 0) 0).entries.length {}).type = .kSimpleFloat ∧
    ((setString (mkEditor (List.replicate 8 0) 0) [109] [1, 2, 3, 4]).2.entries.getD
        (mkEditor (List.replicate 8 0) 0).entries.length {}).simpleValue = 0 ∧
    keyBytes (setString (mkEditor (List.replicate 8 0) 0) [109] [1, 2, 3, 4]).2.buf
      ((setString (mkEditor (List.replicate 8 0) 0) [109] [1, 2, 3, 4]).2.entries.getD
        (mkEditor (List.replicate 8 0) 0).entries.length {}) = [109] :=
  C10_value_alloc_fail_default_entry (mkEditor (List.replicate 8 0) 0) [109] [1, 2, 3, 4]
    (by decide) rfl (by decide) (by decide) (by decide)

theorem writeAt_take_le (buf : List Nat) (off : Nat) (bs : List Nat) (p : Nat)
    (h1 : off ≤ buf.length) (h2 : p ≤ off) :
    (writeAt buf off bs).take p = buf.take p := by
  unfold writeAt
  rw [List.append_assoc]
  rw [List.take_append_of_le_length (by rw [List.length_take]; omega)]
  rw [List.take_take, Nat.min_eq_left h2]

theorem cWriteList_prefix (c : CEnc) (bs : List Nat) (u : Unit) (c1 : CEnc)
    (hpos : c.pos ≤ c.buf.length)
    (h : cWriteList c bs = (.ok u, c1)) :
    c.pos ≤ c1.pos ∧ c1.pos ≤ c1.buf.length ∧ c1.buf.length = c.buf.length ∧
    ∀ p, p ≤ c.pos → c1.buf.take p = c.buf.take p := by
  unfold cWriteList at h
  split at h
  · simp at h
  · rename_i hcap
    simp only [Prod.mk.injEq] at h
    obtain ⟨-, hc⟩ := h
    subst hc
    have hfit : c.pos + bs.length ≤ c.buf.length := by omega
    refine ⟨by dsimp only; omega, ?_, ?_, ?_⟩
    · show c.pos + bs.length ≤ (writeAt c.buf c.pos bs).length
      rw [writeAt_length _ _ _ hfit]
      omega
    · exact writeAt_length _ _ _ hfit
    · intro p hp
      exact writeAt_take_le _ _ _ p hpos hp

theorem cWriteRawView_prefix (c : CEnc) (v : Nat × Nat) (u : Unit) (c1 : CEnc)
    (hpos : c.pos ≤ c.buf.length)
    (h : cWriteRawView c v = (.ok u, c1)) :
    c.pos ≤ c1.pos ∧ c1.pos ≤ c1.buf.length ∧ c1.buf.length = c.buf.length ∧
    ∀ p, p ≤ c.pos → c1.buf.take p = c.buf.take p := by
  unfold cWriteRawView at h
  split at h
  · simp at h
  · rename_i hcap
    dsimp only at h
    simp only [Prod.mk.injEq] at h
    obtain ⟨-, hc⟩ := h
    subst hc
    have hbs : (sliceOf c.buf v).length ≤ v.2 := by
      unfold sliceOf
      rw [List.length_take]
      omega
    have hfit : c.pos + (sliceOf c.buf v).length ≤ c.buf.length := by omega
    refine ⟨by dsimp only; omega, ?_, ?_, ?_⟩
    · show c.pos + v.2 ≤ (writeAt c.buf c.pos (sliceOf c.buf v)).length
      rw [writeAt_length _ _ _ hfit]
      omega
    · exact writeAt_length _ _ _ hfit
    · intro p hp
      exact writeAt_take_le _ _ _ p hpos hp

theorem cWriteKey_prefix (c : CEnc) (v : Nat × Nat) (u : Unit) (c1 : CEnc)
    (hpos : c.pos ≤ c.buf.length)
    (h : cWriteKey c v = (.ok u, c1)) :
    c.pos ≤ c1.pos ∧ c1.pos ≤ c1.buf.length ∧ c1.buf.length = c.buf.length ∧
    ∀ p, p ≤ c.pos → c1.buf.take p = c.buf.take p := by
  unfold cWriteKey at h
  generalize hk : cWriteList c (headerBytes .kTextString v.2) = rk at h
  obtain ⟨r, ck⟩ := rk
  cases r with
  | error e => dsimp only at h; simp at h
  | ok uu =>
    dsimp only at h
    have h1 := cWriteList_prefix c _ uu ck hpos hk
    have h2 := cWriteRawView_prefix ck v u c1 h1.2.1 h
    exact ⟨le_trans h1.1 h2.1, h2.2.1, h2.2.2.1.trans h1.2.2.1,
      fun p hp => (h2.2.2.2 p (le_trans hp h1.1)).trans (h1.2.2.2 p hp)⟩

theorem commitEntry_prefix (c : CEnc) (e : PropertyEntry) (u : Unit) (c1 : CEnc)
    (w : Bool) (hpos : c.pos ≤ c.buf.length)
    (h : commitEntry c e = (.ok u, c1, w)) :
    (c.pos ≤ c1.pos ∧ c1.pos ≤ c1.buf.length ∧ c1.buf.length = c.buf.length ∧
      ∀ p, p ≤ c.pos → c1.buf.take p = c.buf.take p) ∧ w = writesPair e := by
  unfold commitEntry at h
  cases hty : e.type with
  | kUnsignedInt =>
    rw [hty] at h
    dsimp only at h
    generalize hk : cWriteKey c e.key = rk at h
    obtain ⟨r, ck⟩ := rk
    cases r with
    | error _ => simp at h
    | ok uk =>
      dsimp only at h
      generalize hv : cWriteList ck (headerBytes .kUnsignedInt e.uintValue) = rv at h
      obtain ⟨r2, cv⟩ := rv
      cases r2 with
      | error _ => simp at h
      | ok uv =>
        dsimp only at h
        simp only [Prod.mk.injEq] at h
        obtain ⟨-, hc, hw⟩ := h
        subst hc
        have h1 := cWriteKey_prefix c e.key uk ck hpos hk
        have h2 := cWriteList_prefix ck _ uv cv h1.2.1 hv
        refine ⟨⟨le_trans h1.1 h2.1, h2.2.1, h2.2.2.1.trans h1.2.2.1,
          fun p hp => (h2.2.2.2 p (le_trans hp h1.1)).trans (h1.2.2.2 p hp)⟩, ?_⟩
        rw [← hw]
        unfold writesPair
        rw [hty]
  | kNegativeInt =>
    rw [hty] at h
    dsimp only at h
    generalize hk : cWriteKey c e.key = rk at h
    obtain ⟨r, ck⟩ := rk
    cases r with
    | error _ => simp at h
    | ok uk =>
      dsimp only at h
      have h1 := cWriteKey_prefix c e.key uk ck hpos hk
      by_cases hsign : (0 : Int) ≤ e.intValue
      · rw [if_pos hsign] at h
        generalize hv : cWriteList ck (headerBytes .kUnsignedInt e.intValue.toNat) = rv at h
        obtain ⟨r2, cv⟩ := rv
        cases r2 with
        | error _ => simp at h
        | ok uv =>
          dsimp only at h
          simp only [Prod.mk.injEq] at h
          obtain ⟨-, hc, hw⟩ := h
          subst hc
          have h2 := cWriteList_prefix ck _ uv cv h1.2.1 hv
          refine ⟨⟨le_trans h1.1 h2.1, h2.2.1, h2.2.2.1.trans h1.2.2.1,
            fun p hp => (h2.2.2.2 p (le_trans hp h1.1)).trans (h1.2.2.2 p hp)⟩, ?_⟩
          rw [← hw]
          unfold writesPair
          rw [hty]
      · rw [if_neg hsign] at h
        generalize hv : cWriteList ck (headerBytes .kNegativeInt (-1 - e.intValue).toNat) = rv at h
        obtain ⟨r2, cv⟩ := rv
        cases r2 with
        | error _ => simp at h
        | ok uv =>
          dsimp only at h
          simp only [Prod.mk.injEq] at h
          obtain ⟨-, hc, hw⟩ := h
          subst hc
          have h2 := cWriteList_prefix ck _ uv cv h1.2.1 hv
          refine ⟨⟨le_trans h1.1 h2.1, h2.2.1, h2.2.2.1.trans h1.2.2.1,
            fun p hp => (h2.2.2.2 p (le_trans hp h1.1)).trans (h1.2.2.2 p hp)⟩, ?_⟩
          rw [← hw]
          unfold writesPair
          rw [hty]
  | kByteString =>
    rw [hty] at h
    dsimp only at h
    generalize hk : cWriteKey c e.key = rk at h
    obtain ⟨r, ck⟩ := rk
    cases r with
    | error _ => simp at h
    | ok uk =>
      dsimp only at h
      generalize hv : cWriteList ck (headerBytes .kByteString e.spanValue.2) = rv at h
      obtain ⟨r2, cv⟩ := rv
      cases r2 with
      | error _ => simp at h
      | ok uv =>
        dsimp only at h
        generalize hs : cWriteRawView cv e.spanValue = rs at h
        obtain ⟨r3, cs⟩ := rs
        cases r3 with
        | error _ => simp at h
        | ok us =>
          dsimp only at h
          simp only [Prod.mk.injEq] at h
          obtain ⟨-, hc, hw⟩ := h
          subst hc
          have h1 := cWriteKey_prefix c e.key uk ck hpos hk
          have h2 := cWriteList_prefix ck _ uv cv h1.2.1 hv
          have h3 := cWriteRawView_prefix cv e.spanValue us cs h2.2.1 hs
          refine ⟨⟨le_trans h1.1 (le_trans h2.1 h3.1), h3.2.1,
            (h3.2.2.1.trans h2.2.2.1).trans h1.2.2.1,
            fun p hp => ((h3.2.2.2 p (le_trans hp (le_trans h1.1 h2.1))).trans
              (h2.2.2.2 p (le_trans hp h1.1))).trans (h1.2.2.2 p hp)⟩, ?_⟩
          rw [← hw]
          unfold writesPair
          rw [hty]
  | kTextString =>
    rw [hty] at h
    dsimp only at h
    generalize hk : cWriteKey c e.key = rk at h
    obtain ⟨r, ck⟩ := rk
    cases r with
    | error _ => simp at h
    | ok uk =>
      dsimp only at h
      generalize hv : cWriteList ck (headerBytes .kTextString e.spanValue.2) = rv at h
      obtain ⟨r2, cv⟩ := rv
      cases r2 with
      | error _ => simp at h
      | ok uv =>
        dsimp only at h
        generalize hs : cWriteRawView cv e.spanValue = rs at h
        obtain ⟨r3, cs⟩ := rs
        cases r3 with
        | error _ => simp at h
        | ok us =>
          dsimp only at h
          simp only [Prod.mk.injEq] at h
          obtain ⟨-, hc, hw⟩ := h
          subst hc
          have h1 := cWriteKey_prefix c e.key uk ck hpos hk
          have h2 := cWriteList_prefix ck _ uv cv h1.2.1 hv
          have h3 := cWriteRawView_prefix cv e.spanValue us cs h2.2.1 hs
          refine ⟨⟨le_trans h1.1 (le_trans h2.1 h3.1), h3.2.1,
            (h3.2.2.1.trans h2.2.2.1).trans h1.2.2.1,
            fun p hp => ((h3.2.2.2 p (le_trans hp (le_trans h1.1 h2.1))).trans
              (h2.2.2.2 p (le_trans hp h1.1))).trans (h1.2.2.2 p hp)⟩, ?_⟩
          rw [← hw]
          unfold writesPair
          rw [hty]
  | kArray =>
    rw [hty] at h
    dsimp only at h
    simp only [Prod.mk.injEq] at h
    obtain ⟨-, hc, hw⟩ := h
    subst hc
    refine ⟨⟨le_refl _, hpos, rfl, fun p hp => rfl⟩, ?_⟩
    rw [← hw]
    unfold writesPair
    rw [hty]
  | kMap =>
    rw [hty] at h
    dsimp only at h
    simp only [Prod.mk.injEq] at h
    obtain ⟨-, hc, hw⟩ := h
    subst hc
    refine ⟨⟨le_refl _, hpos, rfl, fun p hp => rfl⟩, ?_⟩
    rw [← hw]
    unfold writesPair
    rw [hty]
  | kTag =>
    rw [hty] at h
    dsimp only at h
    simp only [Prod.mk.injEq] at h
    obtain ⟨-, hc, hw⟩ := h
    subst hc
    refine ⟨⟨le_refl _, hpos, rfl, fun p hp => rfl⟩, ?_⟩
    rw [← hw]
    unfold writesPair
    rw [hty]
  | kSimpleFloat =>
    rw [hty] at h
    dsimp only at h
    by_cases h2021 : e.simpleValue = 20 ∨ e.simpleValue = 21
    · rw [if_pos h2021] at h
      generalize hk : cWriteKey c e.key = rk at h
      obtain ⟨r, ck⟩ := rk
      cases r with
      | error _ => simp at h
      | ok uk =>
        dsimp only at h
        generalize hv : cWriteList ck [0xe0 + (if e.boolValue then 21 else 20)] = rv at h
        obtain ⟨r2, cv⟩ := rv
        cases r2 with
        | error _ => simp at h
        | ok uv =>
          dsimp only at h
          simp only [Prod.mk.injEq] at h
          obtain ⟨-, hc, hw⟩ := h
          subst hc
          have h1 := cWriteKey_prefix c e.key uk ck hpos hk
          have h2 := cWriteList_prefix ck _ uv cv h1.2.1 hv
          refine ⟨⟨le_trans h1.1 h2.1, h2.2.1, h2.2.2.1.trans h1.2.2.1,
            fun p hp => (h2.2.2.2 p (le_trans hp h1.1)).trans (h1.2.2.2 p hp)⟩, ?_⟩
          rw [← hw]
          unfold writesPair
          rw [hty]
          rcases h2021 with hsv | hsv
          · rw [hsv]
            decide
          · rw [hsv]
            decide
    · rw [if_neg h2021] at h
      by_cases h22 : e.simpleValue = 22
      · rw [if_pos h22] at h
        generalize hk : cWriteKey c e.key = rk at h
        obtain ⟨r, ck⟩ := rk
        cases r with
        | error _ => simp at h
        | ok uk =>
          dsimp only at h
          generalize hv : cWriteList ck [0xe0 + 22] = rv at h
          obtain ⟨r2, cv⟩ := rv
          cases r2 with
          | error _ => simp at h
          | ok uv =>
            dsimp only at h
            simp only [Prod.mk.injEq] at h
            obtain ⟨-, hc, hw⟩ := h
            subst hc
            have h1 := cWriteKey_prefix c e.key uk ck hpos hk
            have h2 := cWriteList_prefix ck _ uv cv h1.2.1 hv
            refine ⟨⟨le_trans h1.1 h2.1, h2.2.1, h2.2.2.1.trans h1.2.2.1,
              fun p hp => (h2.2.2.2 p (le_trans hp h1.1)).trans (h1.2.2.2 p hp)⟩, ?_⟩
            rw [← hw]
            unfold writesPair
            rw [hty, h22]
            decide
      · rw [if_neg h22] at h
        by_cases h27 : e.simpleValue = 27
        · rw [if_pos h27] at h
          generalize hk : cWriteKey c e.key = rk at h
          obtain ⟨r, ck⟩ := rk
          cases r with
          | error _ => simp at h
          | ok uk =>
            dsimp only at h
            generalize hv : cWriteList ck (0xfb :: beBytes e.doubleValue 8) = rv at h
            obtain ⟨r2, cv⟩ := rv
            cases r2 with
            | error _ => simp at h
            | ok uv =>
              dsimp only at h
              simp only [Prod.mk.injEq] at h
              obtain ⟨-, hc, hw⟩ := h
              subst hc
              have h1 := cWriteKey_prefix c e.key uk ck hpos hk
              have h2 := cWriteList_prefix ck _ uv cv h1.2.1 hv
              refine ⟨⟨le_trans h1.1 h2.1, h2.2.1, h2.2.2.1.trans h1.2.2.1,
                fun p hp => (h2.2.2.2 p (le_trans hp h1.1)).trans (h1.2.2.2 p hp)⟩, ?_⟩
              rw [← hw]
              unfold writesPair
              rw [hty, h27]
              decide
        · rw [if_neg h27] at h
          simp only [Prod.mk.injEq] at h
          obtain ⟨-, hc, hw⟩ := h
          subst hc
          refine ⟨⟨le_refl _, hpos, rfl, fun p hp => rfl⟩, ?_⟩
          rw [← hw]
          unfold writesPair
          rw [hty]
          have h20 : ¬ e.simpleValue = 20 := fun hh => h2021 (Or.inl hh)
          have h21 : ¬ e.simpleValue = 21 := fun hh => h2021 (Or.inr hh)
          symm
          simp only [Bool.or_eq_false_iff, beq_eq_false_iff_ne, ne_eq]
          exact ⟨⟨⟨h20, h21⟩, h22⟩, h27⟩

theorem commitLoop_prefix (l : List PropertyEntry) (c : CEnc) (p0 : Nat)
    (c1 : CEnc) (pairs : Nat) (hpos : c.pos ≤ c.buf.length)
    (h : commitLoop l c p0 = .ok (c1, pairs)) :
    c.pos ≤ c1.pos ∧ c1.pos ≤ c1.buf.length ∧ c1.buf.length = c.buf.length ∧
    ∀ p, p ≤ c.pos → c1.buf.take p = c.buf.take p := by
  induction l generalizing c p0 with
  | nil =>
    unfold commitLoop at h
    simp only [Except.ok.injEq, Prod.mk.injEq] at h
    obtain ⟨hc, -⟩ := h
    subst hc
    exact ⟨le_refl _, hpos, rfl, fun p hp => rfl⟩
  | cons e rest ih =>
    unfold commitLoop at h
    split at h
    · exact ih c p0 hpos h
    · generalize hce : commitEntry c e = ce at h
      obtain ⟨r, cm, w⟩ := ce
      cases r with
      | error _ => simp at h
      | ok uu =>
        dsimp only at h
        obtain ⟨h1, -⟩ := commitEntry_prefix c e uu cm w hpos hce
        have h2 := ih cm _ h1.2.1 h
        exact ⟨le_trans h1.1 h2.1, h2.2.1, h2.2.2.1.trans h1.2.2.1,
          fun p hp => (h2.2.2.2 p (le_trans hp h1.1)).trans (h1.2.2.2 p hp)⟩

theorem commitLoop_pairs (l : List PropertyEntry) (c : CEnc) (p0 : Nat)
    (c1 : CEnc) (pairs : Nat) (hpos : c.pos ≤ c.buf.length)
    (h : commitLoop l c p0 = .ok (c1, pairs)) :
    pairs = p0 + (l.filter (fun x => writesPair x && !x.removed)).length := by
  induction l generalizing c p0 with
  | nil =>
    unfold commitLoop at h
    simp only [Except.ok.injEq, Prod.mk.injEq] at h
    obtain ⟨-, hp⟩ := h
    simp [← hp]
  | cons e rest ih =>
    unfold commitLoop at h
    rw [List.filter_cons]
    split at h
    · rename_i hrem
      have hrb : e.removed = true := by
        cases hr : e.removed
        · rw [hr] at hrem; simp at hrem
        · rfl
      rw [show (writesPair e && !e.removed) = false by rw [hrb]; simp]
      rw [if_neg (by simp)]
      exact ih c p0 hpos h
    · rename_i hrem
      have hrb : e.removed = false := by
        cases hr : e.removed
        · rfl
        · rw [hr] at hrem; simp at hrem
      generalize hce : commitEntry c e = ce at h
      obtain ⟨r, cm, w⟩ := ce
      cases r with
      | error _ => simp at h
      | ok uu =>
        dsimp only at h
        obtain ⟨h1, hw⟩ := commitEntry_prefix c e uu cm w hpos hce
        have h2 := ih cm _ h1.2.1 h
        rw [show (writesPair e && !e.removed) = writesPair e by rw [hrb]; simp]
        cases hwp : writesPair e
        · rw [hwp] at hw
          subst hw
          rw [if_neg (by simp)] at h2
          rw [if_neg (by simp)]
          exact h2
        · rw [hwp] at hw
          subst hw
          rw [if_pos rfl] at h2
          rw [if_pos rfl, h2]
          simp only [List.length_cons]
          omega

/-- C9: whenever the editor holds a live simple/float entry whose
simple_value is none of 20/21/22/27, a successful Commit emits a blob whose
leading map header still declares `property_count()` pairs while strictly
fewer key/value pairs were actually encoded after it: the commit switch
writes nothing for such an entry but the `BeginMap` count includes it. -/
theorem C9_commit_map_count_exceeds_pairs (s : LedgerEditor) (out : List Nat)
    (pairs : Nat) (hcnt : propertyCount s < 2 ^ 64)
    (hbad : ∃ e ∈ s.entries, e.removed = false ∧ e.type = .kSimpleFloat ∧
      e.simpleValue ≠ 20 ∧ e.simpleValue ≠ 21 ∧ e.simpleValue ≠ 22 ∧
      e.simpleValue ≠ 27)
    (h : commit s = .ok (out, pairs)) :
    (readMapHeader out 0).1 = .ok (propertyCount s) ∧
    pairs < propertyCount s := by
  unfold commit at h
  generalize hw0 : cWriteList ⟨s.buf, 0⟩ (headerBytes .kMap (propertyCount s)) = w0 at h
  obtain ⟨r0, c⟩ := w0
  cases r0 with
  | error _ => simp at h
  | ok u0 =>
    dsimp only at h
    generalize hcl : commitLoop s.entries c 0 = cl at h
    cases cl with
    | error _ => simp at h
    | ok pr =>
      obtain ⟨c1, prs⟩ := pr
      dsimp only at h
      simp only [Except.ok.injEq, Prod.mk.injEq] at h
      obtain ⟨hout, hprs⟩ := h
      unfold cWriteList at hw0
      split at hw0
      · simp at hw0
      · rename_i hcap
        dsimp only at hcap
        dsimp only at hw0
        simp only [Prod.mk.injEq] at hw0
        obtain ⟨-, hc⟩ := hw0
        have hhl : (headerBytes .kMap (propertyCount s)).length ≤ s.buf.length := by
          omega
        have hwa : writeAt s.buf 0 (headerBytes .kMap (propertyCount s)) =
            headerBytes .kMap (propertyCount s) ++
              s.buf.drop (headerBytes .kMap (propertyCount s)).length := by
          unfold writeAt
          simp
        have hposc : c.pos ≤ c.buf.length := by
          rw [← hc]
          dsimp only
          rw [writeAt_length _ _ _ (by omega)]
          omega
        have hpre := commitLoop_prefix s.entries c 0 c1 prs hposc hcl
        have hcpos : c.pos = (headerBytes .kMap (propertyCount s)).length := by
          rw [← hc]
          dsimp only
          omega
        have htakeh : c.buf.take (headerBytes .kMap (propertyCount s)).length =
            headerBytes .kMap (propertyCount s) := by
          rw [← hc]
          dsimp only
          rw [hwa, List.take_left]
        have htake1 : c1.buf.take (headerBytes .kMap (propertyCount s)).length =
            headerBytes .kMap (propertyCount s) := by
          rw [hpre.2.2.2 _ (by rw [hcpos]), htakeh]
        constructor
        · have hsplit : out = headerBytes .kMap (propertyCount s) ++
              out.drop (headerBytes .kMap (propertyCount s)).length := by
            conv_lhs => rw [← List.take_append_drop
              (headerBytes .kMap (propertyCount s)).length out]
            rw [← hout, List.take_take, Nat.min_eq_left (by rw [← hcpos]; exact hpre.1),
              htake1]
          rw [hsplit]
          unfold readMapHeader
          have hra := readHeader_at [] (out.drop (headerBytes .kMap (propertyCount s)).length)
            .kMap (propertyCount s) hcnt
          simp only [List.nil_append, List.length_nil] at hra
          rw [hra]
        · have hpairs := commitLoop_pairs s.entries c 0 c1 prs hposc hcl
          obtain ⟨e, he, hrm, hty, h20, h21, h22, h27⟩ := hbad
          have hwp : writesPair e = false := by
            unfold writesPair
            rw [hty]
            simp only [Bool.or_eq_false_iff, beq_eq_false_iff_ne, ne_eq]
            exact ⟨⟨⟨h20, h21⟩, h22⟩, h27⟩
          have hmem : e ∈ s.entries.filter (fun x => !x.removed) := by
            rw [List.mem_filter]
            exact ⟨he, by rw [hrm]; rfl⟩
          have hlt : ((s.entries.filter (fun x => !x.removed)).filter
              (fun x => writesPair x)).length <
              (s.entries.filter (fun x => !x.removed)).length := by
            rw [List.length_filter_lt_length_iff_exists]
            exact ⟨e, hmem, by rw [hwp]; simp⟩
          rw [List.filter_filter] at hlt
          unfold propertyCount
          rw [← hprs, hpairs]
          omega

theorem C9_commit_map_count_exceeds_pairs_witness :
    (readMapHeader [161] 0).1 = .ok (propertyCount (mkEditor c9blob 4)) ∧
    0 < propertyCount (mkEditor c9blob 4) :=
  C9_commit_map_count_exceeds_pairs (mkEditor c9blob 4) [161] 0
    (by decide)
    ⟨{ key := (31, 1), type := .kSimpleFloat }, by decide, rfl, rfl,
      by decide, by decide, by decide, by decide⟩
    rfl

end PbLedger
